import Mathlib

/-!
Verification development for the namespace-label-operator reconciliation core
(`internal/controller`): the protection evaluator (`applyProtectionLogic` with
its glob matcher `isLabelProtected`), the label merge engine (`removeStaleLabels`,
`applyDesiredLabels`, `applyLabelsToNamespace`, and the inline removal/upsert
loops of `Reconcile`), the applied-state tracker (`readAppliedAnnotation` /
`writeAppliedAnnotation` over the `labels.shahaf.com/applied` annotation), and
the deletion handler (`handleDeletion`).

Go `map[string]string` values are modelled as association lists whose
operations (`lookupL`, `insertL`, `eraseL`) realise exact map semantics:
`insertL` replaces every pair carrying the key and `eraseL` drops every such
pair, so lookups behave like Go map reads even on lists with duplicate keys.
Iteration order of a Go map is unspecified, so wherever the code ranges over a
map the model takes the entry list (in an arbitrary order) as input.
-/

namespace NsLabelOp

/-- A Go `map[string]string`, as the list of its entries. -/
abbrev Labels := List (String × String)

/-- Go map read `m[key]` returning `(value, ok)`: the first entry with the key. -/
def lookupL : Labels → String → Option String
  | [], _ => none
  | (k, v) :: rest, key => if k = key then some v else lookupL rest key

/-- Go map read `m[key]` in value position: absent keys read as `""` (zero value). -/
def getD (m : Labels) (key : String) : String := (lookupL m key).getD ""

/-- Go `delete(m, key)`: every entry carrying the key is dropped. -/
def eraseL : Labels → String → Labels
  | [], _ => []
  | (k, v) :: rest, key =>
    if k = key then eraseL rest key else (k, v) :: eraseL rest key

/-- Replace the value of every entry carrying the key. -/
def replaceAll : Labels → String → String → Labels
  | [], _, _ => []
  | (k, v') :: rest, key, v =>
    if k = key then (key, v) :: replaceAll rest key v
    else (k, v') :: replaceAll rest key v

/-- Go map write `m[key] = v`: overwrite if present, append otherwise. -/
def insertL (m : Labels) (key v : String) : Labels :=
  if (lookupL m key).isSome then replaceAll m key v else m ++ [(key, v)]

/-- The key list of a label map. -/
def keysL (m : Labels) : List String := m.map Prod.fst

/-- A label map with no duplicate keys (always true of real Go maps). -/
def NodupKeys (m : Labels) : Prop := (keysL m).Nodup

instance : DecidablePred NodupKeys := fun m =>
  inferInstanceAs (Decidable (keysL m).Nodup)

/-!
### Glob matcher

A translation of Go's `path/filepath.Match` (Unix separator `/`), the matcher
used by `isLabelProtected`. Strings are modelled as `List Char`; label keys and
patterns are ASCII in practice, where Go's byte/rune distinction is invisible.
`none` stands for `ErrBadPattern`. Recursions that Go writes as loops over a
shrinking pattern take an explicit fuel argument; callers pass
`pattern.length + 1`, which the loops can never exhaust since every iteration
consumes at least one pattern character.
-/

/-- The leading `'*'` run of a chunk (first loop of Go's `scanChunk`). -/
def dropStars : List Char → Bool → Bool × List Char
  | '*' :: rest, _ => dropStars rest true
  | p, star => (star, p)

/-- The scan loop of Go's `scanChunk`: split off the segment up to the next
unbracketed `'*'`. -/
def scanChunkBody : List Char → Bool → List Char × List Char
  | [], _ => ([], [])
  | '\\' :: rest, inrange =>
    match rest with
    | c :: rest' =>
      let (ch, r) := scanChunkBody rest' inrange
      ('\\' :: c :: ch, r)
    | [] => (['\\'], [])
  | '[' :: rest, _ =>
    let (ch, r) := scanChunkBody rest true
    ('[' :: ch, r)
  | ']' :: rest, _ =>
    let (ch, r) := scanChunkBody rest false
    (']' :: ch, r)
  | '*' :: rest, inrange =>
    if inrange then
      let (ch, r) := scanChunkBody rest true
      ('*' :: ch, r)
    else ([], '*' :: rest)
  | c :: rest, inrange =>
    let (ch, r) := scanChunkBody rest inrange
    (c :: ch, r)

/-- Go's `getEsc`: one (possibly escaped) character of a character class. -/
def getEsc : List Char → Option (Char × List Char)
  | [] => none
  | c :: rest =>
    if c = '-' ∨ c = ']' then none
    else if c = '\\' then
      match rest with
      | [] => none
      | c' :: rest' => if rest' = [] then none else some (c', rest')
    else if rest = [] then none else some (c, rest)

/-- The range loop inside Go's `matchChunk` `'['` case: consume
`{ lo [- hi] }* ']'`, reporting whether `r` fell in some range. -/
def parseRanges : Nat → List Char → Char → Bool → Nat → Option (List Char × Bool)
  | 0, _, _, _, _ => none
  | fuel + 1, chunk, r, matched, nrange =>
    match chunk with
    | ']' :: rest =>
      if nrange > 0 then some (rest, matched)
      else none
    | _ =>
      match getEsc chunk with
      | none => none
      | some (lo, chunk1) =>
        match chunk1 with
        | '-' :: chunk1' =>
          match getEsc chunk1' with
          | none => none
          | some (hi, chunk2) =>
            parseRanges fuel chunk2 r
              (matched || (decide (lo ≤ r) && decide (r ≤ hi))) (nrange + 1)
        | _ =>
          parseRanges fuel chunk1 r
            (matched || (decide (lo ≤ r) && decide (r ≤ lo))) (nrange + 1)

/-- The loop of Go's `matchChunk`. Once `failed` is set, the chunk is still
consumed (checking well-formedness) but the name is no longer read. -/
def matchChunkGo : Nat → List Char → List Char → Bool → Option (List Char × Bool)
  | 0, _, _, _ => none
  | _ + 1, [], s, failed => if failed then some ([], false) else some (s, true)
  | fuel + 1, c :: chunkRest, s, failed0 =>
    let failed := failed0 || s.isEmpty
    if c = '[' then
      let r : Char := if failed then Char.ofNat 0 else s.headD (Char.ofNat 0)
      let s' := if failed then s else s.tail
      let (negated, chunk1) :=
        match chunkRest with
        | '^' :: cr => (true, cr)
        | cr => (false, cr)
      match parseRanges fuel chunk1 r false 0 with
      | none => none
      | some (chunk2, matched) =>
        matchChunkGo fuel chunk2 s' (failed || (matched == negated))
    else if c = '?' then
      if failed then matchChunkGo fuel chunkRest s failed
      else matchChunkGo fuel chunkRest s.tail (s.headD (Char.ofNat 0) = '/')
    else if c = '\\' then
      match chunkRest with
      | [] => none
      | e :: chunkRest' =>
        if failed then matchChunkGo fuel chunkRest' s failed
        else matchChunkGo fuel chunkRest' s.tail (e ≠ s.headD (Char.ofNat 0))
    else
      if failed then matchChunkGo fuel chunkRest s failed
      else matchChunkGo fuel chunkRest s.tail (c ≠ s.headD (Char.ofNat 0))

/-- Go's `matchChunk chunk s`: `some (rest, ok)`, or `none` for `ErrBadPattern`. -/
def matchChunk (chunk s : List Char) : Option (List Char × Bool) :=
  matchChunkGo (chunk.length + 1) chunk s false

/-- The inner `'*'` loop of Go's `Match`: try the chunk at successive name
suffixes, stopping at a separator. `some (some t)` resumes the outer loop with
name `t`; `some none` exhausts the loop without a match. -/
def starLoop (chunk : List Char) (patIsEmpty : Bool) : List Char → Option (Option (List Char))
  | [] => some none
  | c :: rest =>
    if c = '/' then some none
    else
      match matchChunk chunk rest with
      | none => none
      | some (t, ok) =>
        if ok then
          if patIsEmpty && !t.isEmpty then starLoop chunk patIsEmpty rest
          else some (some t)
        else starLoop chunk patIsEmpty rest

/-- The trailing well-formedness sweep of Go's `Match`: scan the rest of the
pattern chunk by chunk against the empty name, reporting a bad pattern. -/
def checkBadPattern : Nat → List Char → Bool
  | 0, _ => false
  | fuel + 1, pattern =>
    if pattern.isEmpty then false
    else
      let (_, rest1) := dropStars pattern false
      let (chunk, rest) := scanChunkBody rest1 false
      match matchChunk chunk [] with
      | none => true
      | some _ => checkBadPattern fuel rest

/-- The `Pattern` loop of Go's `Match`. -/
def goMatch : Nat → List Char → List Char → Option Bool
  | 0, _, _ => none
  | fuel + 1, pattern, name =>
    match pattern with
    | [] => some name.isEmpty
    | _ =>
      let (star, rest1) := dropStars pattern false
      let (chunk, rest) := scanChunkBody rest1 false
      if star && chunk.isEmpty then some (!name.contains '/')
      else
        match matchChunk chunk name with
        | none => none
        | some (t, ok) =>
          if ok && (t.isEmpty || !rest.isEmpty) then goMatch fuel rest t
          else if star then
            match starLoop chunk rest.isEmpty name with
            | none => none
            | some (some t') => goMatch fuel rest t'
            | some none => if checkBadPattern (rest.length + 1) rest then none else some false
          else if checkBadPattern (rest.length + 1) rest then none else some false

/-- Go's `filepath.Match pattern name`: `none` for `ErrBadPattern`. -/
def filepathMatch (pattern name : String) : Option Bool :=
  goMatch (pattern.length + 1) pattern.toList name.toList

/-- `isLabelProtected` (namespacelabel_controller.go): a key is protected when
some non-empty pattern glob-matches it; malformed patterns are skipped. -/
def isLabelProtected (labelKey : String) : List String → Bool
  | [] => false
  | p :: rest =>
    if p = "" then isLabelProtected labelKey rest
    else
      match filepathMatch p labelKey with
      | some true => true
      | _ => isLabelProtected labelKey rest

/-!
### Protection evaluator
-/

/-- `ProtectionMode` (api/v1alpha1) is a string type; the controller switches on
it with `fail` and `warn` cases and a default covering `skip` and anything else. -/
abbrev ProtectionMode := String

def ProtectionModeSkip : ProtectionMode := "skip"

def ProtectionModeWarn : ProtectionMode := "warn"

def ProtectionModeFail : ProtectionMode := "fail"

/-- `ProtectionResult` (namespacelabel_controller.go). -/
structure ProtectionResult where
  allowedLabels : Labels
  protectedSkipped : List String
  warnings : List String
  shouldFail : Bool
  deriving Repr, DecidableEq

/-- A single-quote character, used by the diagnostic message format. -/
def quoteCh : String := String.singleton (Char.ofNat 39)

/-- The diagnostic message of `applyProtectionLogic`:
`Label <key> is protected by pattern and has existing value <old> (attempting to set <new>)`
with the three values single-quoted, exactly as `fmt.Sprintf` builds it. -/
def protectionWarning (key existingValue value : String) : String :=
  "Label " ++ quoteCh ++ key ++ quoteCh ++
    " is protected by pattern and has existing value " ++ quoteCh ++ existingValue ++
    quoteCh ++ " (attempting to set " ++ quoteCh ++ value ++ quoteCh ++ ")"

/-- The loop of `applyProtectionLogic` (namespacelabel_controller.go lines
436-478), with the accumulated `ProtectionResult` explicit. The `fail` case
returns without visiting the remaining keys. -/
def applyProtectionGo (existing prevApplied : Labels) (patterns : List String)
    (mode : ProtectionMode) (ignoreExisting : Bool) :
    List (String × String) → ProtectionResult → ProtectionResult
  | [], acc => acc
  | (key, value) :: rest, acc =>
    if isLabelProtected key patterns then
      let existingValue := getD existing key
      let hasExisting := (lookupL existing key).isSome
      let wasPrevApplied := (lookupL prevApplied key).isSome
      if ignoreExisting && wasPrevApplied then
        applyProtectionGo existing prevApplied patterns mode ignoreExisting rest
          { acc with allowedLabels := insertL acc.allowedLabels key value }
      else if hasExisting ∧ existingValue ≠ value then
        let msg := protectionWarning key existingValue value
        if mode = ProtectionModeFail then
          { acc with shouldFail := true, warnings := acc.warnings ++ [msg] }
        else if mode = ProtectionModeWarn then
          applyProtectionGo existing prevApplied patterns mode ignoreExisting rest
            { acc with warnings := acc.warnings ++ [msg],
                       protectedSkipped := acc.protectedSkipped ++ [key] }
        else
          applyProtectionGo existing prevApplied patterns mode ignoreExisting rest
            { acc with protectedSkipped := acc.protectedSkipped ++ [key] }
      else
        applyProtectionGo existing prevApplied patterns mode ignoreExisting rest
          { acc with allowedLabels := insertL acc.allowedLabels key value }
    else
      applyProtectionGo existing prevApplied patterns mode ignoreExisting rest
        { acc with allowedLabels := insertL acc.allowedLabels key value }

/-- `applyProtectionLogic(desired, existing, prevApplied, patterns, mode,
ignoreExisting)`; `desired` is the entry list of the desired-label map in
iteration order. -/
def applyProtectionLogic (desired : List (String × String)) (existing prevApplied : Labels)
    (patterns : List String) (mode : ProtectionMode) (ignoreExisting : Bool) :
    ProtectionResult :=
  applyProtectionGo existing prevApplied patterns mode ignoreExisting desired
    ⟨[], [], [], false⟩

/-!
### Label merge/diff engine
-/

/-- The loop of `removeStaleLabels` (utils.go lines 141-152), ranging over the
`prevApplied` entries: a previously-applied key no longer desired is deleted
only if its current value still equals the recorded one. Go's
`cur, exists := current[key]; exists && cur == prevVal` is exactly
`lookupL current key = some prevVal`. -/
def removeStaleGo (desired : Labels) : List (String × String) → Labels → Bool → Labels × Bool
  | [], current, changed => (current, changed)
  | (key, prevVal) :: rest, current, changed =>
    if (lookupL desired key).isSome then removeStaleGo desired rest current changed
    else if lookupL current key = some prevVal then
      removeStaleGo desired rest (eraseL current key) true
    else removeStaleGo desired rest current changed

/-- `removeStaleLabels(current, desired, prevApplied) bool`, returning the
mutated `current` alongside the `changed` flag. -/
def removeStaleLabels (current desired prevApplied : Labels) : Labels × Bool :=
  removeStaleGo desired prevApplied current false

/-- The loop of `applyDesiredLabels` (utils.go lines 155-164): Go's
`current[key] != val` reads an absent key as `""`. -/
def applyDesiredGo : List (String × String) → Labels → Bool → Labels × Bool
  | [], current, changed => (current, changed)
  | (key, v) :: rest, current, changed =>
    if getD current key ≠ v then applyDesiredGo rest (insertL current key v) true
    else applyDesiredGo rest current changed

/-- `applyDesiredLabels(current, desired) bool`. -/
def applyDesiredLabels (current desired : Labels) : Labels × Bool :=
  applyDesiredGo desired current false

/-- `applyLabelsToNamespace(ns, desired, prevApplied) bool` (namespace.go lines
13-21): removal then upsert on the namespace label map. -/
def applyLabelsToNamespace (labels desired prevApplied : Labels) : Labels × Bool :=
  let r := removeStaleLabels labels desired prevApplied
  let a := applyDesiredLabels r.1 desired
  (a.1, a.2 || r.2)

/-- The inline upsert loop of `Reconcile` (namespacelabel_controller.go lines
676-681): `if cur, ok := ns.Labels[k]; !ok || cur != v`, which is exactly
`lookupL current k ≠ some v` — unlike `applyDesiredLabels`, this inserts an
absent key even when the value is `""`. -/
def reconcileUpsertGo : List (String × String) → Labels → Bool → Labels × Bool
  | [], current, changed => (current, changed)
  | (k, v) :: rest, current, changed =>
    if lookupL current k ≠ some v then reconcileUpsertGo rest (insertL current k v) true
    else reconcileUpsertGo rest current changed

/-- Outcome of the label-handling slice of one `Reconcile` pass. -/
structure PassOutcome where
  labels : Labels
  changed : Bool
  result : ProtectionResult
  failed : Bool
  deriving Repr, DecidableEq

/-- The label mutation of one `Reconcile` pass (namespacelabel_controller.go
lines 639-687): run the protection evaluator; on `ShouldFail` return before
touching any label; otherwise run the inline stale-removal loop over
`prevApplied` and the inline upsert loop over the allowed set. -/
def reconcilePassLabels (desired : List (String × String)) (labels prevApplied : Labels)
    (patterns : List String) (mode : ProtectionMode) (ignoreExisting : Bool) :
    PassOutcome :=
  let pr := applyProtectionLogic desired labels prevApplied patterns mode ignoreExisting
  if pr.shouldFail then ⟨labels, false, pr, true⟩
  else
    let r := removeStaleGo pr.allowedLabels prevApplied labels false
    let u := reconcileUpsertGo pr.allowedLabels r.1 r.2
    ⟨u.1, u.2, pr, false⟩

/-!
### Deletion handler
-/

/-- The cleanup loop of `handleDeletion` (namespace.go lines 131-139): ranges
over the keys of the CR's `Spec.Labels`; a key is deleted from the namespace
only if it was previously applied and still carries the recorded value. Go's
`prevVal, wasApplied := prevApplied[k]` guard followed by
`cur, exists := ns.Labels[k]; exists && cur == prevVal` is exactly
`(lookupL prevApplied k).isSome ∧ lookupL labels k = lookupL prevApplied k`. -/
def handleDeletionGo (prevApplied : Labels) : List String → Labels → Bool → Labels × Bool
  | [], labels, changed => (labels, changed)
  | k :: rest, labels, changed =>
    if (lookupL prevApplied k).isSome ∧ lookupL labels k = lookupL prevApplied k then
      handleDeletionGo prevApplied rest (eraseL labels k) true
    else handleDeletionGo prevApplied rest labels changed

/-- The label mutation of `handleDeletion` (namespace.go lines 107-156):
`specLabelKeys` is the key list of the deleted CR's `Spec.Labels`. -/
def handleDeletionLabels (specLabelKeys : List String) (labels prevApplied : Labels) :
    Labels × Bool :=
  handleDeletionGo prevApplied specLabelKeys labels false

/-!
### Applied-state tracker

`readAppliedAnnotation` / `writeAppliedAnnotation` store a JSON-encoded
`map[string]string` in the `labels.shahaf.com/applied` annotation. The calls
into Go's `encoding/json` (standard library) are modelled after its documented
behaviour for this type: `Unmarshal` first syntax-checks the whole input
(`checkValid`), so malformed JSON returns an error without touching the output
map; on valid JSON it assigns string-valued object entries in order (later
duplicates win) and skips entries whose value has the wrong type; a non-object
top-level value (or `null`) assigns nothing. `Marshal` of a string map emits
the entries sorted by key with JSON string escaping (HTML-escaping `<`, `>`,
`&`, as Go does by default).
-/

/-- An opening curly brace. -/
def lbrace : Char := Char.ofNat 123

/-- A closing curly brace. -/
def rbrace : Char := Char.ofNat 125

/-- A parsed JSON value. Numeric payloads are irrelevant to decoding into a
string map and are not retained. -/
inductive Json where
  | null
  | bool (b : Bool)
  | num
  | str (s : String)
  | arr (elems : List Json)
  | obj (pairs : List (String × Json))
  deriving Repr

/-- JSON insignificant whitespace. -/
def skipWs : List Char → List Char
  | c :: rest =>
    if c = ' ' ∨ c = Char.ofNat 9 ∨ c = Char.ofNat 10 ∨ c = Char.ofNat 13 then skipWs rest
    else c :: rest
  | [] => []

def isHexDigit (c : Char) : Bool :=
  c.isDigit || (decide ('a' ≤ c) && decide (c ≤ 'f')) || (decide ('A' ≤ c) && decide (c ≤ 'F'))

def hexVal (c : Char) : Nat :=
  if c.isDigit then c.toNat - 48
  else if decide ('a' ≤ c) && decide (c ≤ 'f') then c.toNat - 87
  else c.toNat - 55

/-- The body of a JSON string, after the opening quote: escapes are decoded,
unescaped control characters are rejected. (Surrogate-pair recombination of
`\uXXXX` escapes is not modelled; the decoded character is what matters only
through string equality on ASCII data.) -/
def parseStringBody : List Char → List Char → Option (String × List Char)
  | [], _ => none
  | '"' :: rest, acc => some (String.mk acc.reverse, rest)
  | '\\' :: rest, acc =>
    match rest with
    | [] => none
    | e :: rest' =>
      if e = '"' then parseStringBody rest' ('"' :: acc)
      else if e = '\\' then parseStringBody rest' ('\\' :: acc)
      else if e = '/' then parseStringBody rest' ('/' :: acc)
      else if e = 'b' then parseStringBody rest' (Char.ofNat 8 :: acc)
      else if e = 'f' then parseStringBody rest' (Char.ofNat 12 :: acc)
      else if e = 'n' then parseStringBody rest' (Char.ofNat 10 :: acc)
      else if e = 'r' then parseStringBody rest' (Char.ofNat 13 :: acc)
      else if e = 't' then parseStringBody rest' (Char.ofNat 9 :: acc)
      else if e = 'u' then
        match rest' with
        | h1 :: h2 :: h3 :: h4 :: rest2 =>
          if isHexDigit h1 && isHexDigit h2 && isHexDigit h3 && isHexDigit h4 then
            parseStringBody rest2
              (Char.ofNat (hexVal h1 * 4096 + hexVal h2 * 256 + hexVal h3 * 16 + hexVal h4) :: acc)
          else none
        | _ => none
      else none
  | c :: rest, acc =>
    if c.toNat < 32 then none else parseStringBody rest (c :: acc)

/-- Consume a possibly-empty run of decimal digits. -/
def parseDigitsRest : List Char → List Char
  | c :: rest => if c.isDigit then parseDigitsRest rest else c :: rest
  | [] => []

/-- Consume a non-empty run of decimal digits. -/
def parseDigits1 : List Char → Option (List Char)
  | c :: rest => if c.isDigit then some (parseDigitsRest rest) else none
  | [] => none

/-- Optional exponent part of a JSON number. -/
def parseExp (input : List Char) : Option (List Char) :=
  match input with
  | c :: r =>
    if c = 'e' ∨ c = 'E' then
      match r with
      | sgn :: r2 => if sgn = '+' ∨ sgn = '-' then parseDigits1 r2 else parseDigits1 (sgn :: r2)
      | [] => none
    else some (c :: r)
  | [] => some []

/-- Optional fraction part of a JSON number, then the exponent. -/
def parseFrac (input : List Char) : Option (List Char) :=
  match input with
  | '.' :: r =>
    match parseDigits1 r with
    | some r' => parseExp r'
    | none => none
  | _ => parseExp input

/-- A JSON number (validated, value discarded). -/
def parseNumber (input : List Char) : Option (List Char) :=
  let afterSign := match input with | '-' :: r => r | _ => input
  match afterSign with
  | '0' :: r => parseFrac r
  | c :: r => if c.isDigit then parseFrac (parseDigitsRest r) else none
  | [] => none

mutual

/-- One JSON value, by recursive descent. The fuel only bounds recursion and is
never exhausted when callers pass `input.length + 2`. -/
def parseValue : Nat → List Char → Option (Json × List Char)
  | 0, _ => none
  | fuel + 1, input =>
    match skipWs input with
    | [] => none
    | c :: r =>
      if c = 'n' then
        if r.take 3 = ['u', 'l', 'l'] then some (.null, r.drop 3) else none
      else if c = 't' then
        if r.take 3 = ['r', 'u', 'e'] then some (.bool true, r.drop 3) else none
      else if c = 'f' then
        if r.take 4 = ['a', 'l', 's', 'e'] then some (.bool false, r.drop 4) else none
      else if c = '"' then
        match parseStringBody r [] with
        | some (sv, rest) => some (.str sv, rest)
        | none => none
      else if c = lbrace then
        match skipWs r with
        | [] => none
        | c' :: rest =>
          if c' = rbrace then some (.obj [], rest) else parseMembers fuel (c' :: rest) []
      else if c = '[' then
        match skipWs r with
        | ']' :: rest => some (.arr [], rest)
        | r' => parseElements fuel r' []
      else if c = '-' ∨ c.isDigit then
        match parseNumber (c :: r) with
        | some rest => some (.num, rest)
        | none => none
      else none

/-- The members of a JSON object, after the opening brace. -/
def parseMembers : Nat → List Char → List (String × Json) → Option (Json × List Char)
  | 0, _, _ => none
  | fuel + 1, input, acc =>
    match skipWs input with
    | '"' :: r =>
      match parseStringBody r [] with
      | none => none
      | some (key, rest) =>
        match skipWs rest with
        | ':' :: rest' =>
          match parseValue fuel rest' with
          | none => none
          | some (v, rest2) =>
            match skipWs rest2 with
            | [] => none
            | c :: rest3 =>
              if c = ',' then parseMembers fuel rest3 (acc ++ [(key, v)])
              else if c = rbrace then some (.obj (acc ++ [(key, v)]), rest3)
              else none
        | _ => none
    | _ => none

/-- The elements of a JSON array, after the opening bracket. -/
def parseElements : Nat → List Char → List Json → Option (Json × List Char)
  | 0, _, _ => none
  | fuel + 1, input, acc =>
    match parseValue fuel input with
    | none => none
    | some (v, rest) =>
      match skipWs rest with
      | ',' :: rest' => parseElements fuel rest' (acc ++ [v])
      | ']' :: rest' => some (.arr (acc ++ [v]), rest')
      | _ => none

end

/-- A whole JSON text: one value with only whitespace around it (Go's
`checkValid` accepts exactly this). -/
def parseJson (raw : String) : Option Json :=
  match parseValue (raw.length + 2) raw.toList with
  | some (j, rest) => if (skipWs rest).isEmpty then some j else none
  | none => none

/-- `json.Unmarshal` of a parsed value into a `map[string]string`: string-valued
entries of a top-level object are assigned in order; everything else assigns
nothing. -/
def decodeStringMap : Json → Labels
  | .obj pairs =>
    pairs.foldl (fun acc p => match p.2 with | .str sv => insertL acc p.1 sv | _ => acc) []
  | _ => []

/-- The annotation key `labels.shahaf.com/applied`. -/
def appliedAnnoKey : String := "labels.shahaf.com/applied"

/-- `readAppliedAnnotation(ns)` (utils.go lines 38-49): the ownership record,
read from the namespace's annotations; absent, empty or malformed content
yields the empty map and never an error. -/
def readAppliedAnno (annotations : Labels) : Labels :=
  match lookupL annotations appliedAnnoKey with
  | none => []
  | some raw =>
    if raw = "" then []
    else
      match parseJson raw with
      | none => []
      | some j => decodeStringMap j

/-- A hexadecimal digit character. -/
def hexDigit (n : Nat) : Char :=
  if n < 10 then Char.ofNat (48 + n) else Char.ofNat (87 + n)

/-- Go's JSON string escaping with default HTML escaping. -/
def jsonEscapeChar (c : Char) : List Char :=
  if c = '"' then ['\\', '"']
  else if c = '\\' then ['\\', '\\']
  else if c = Char.ofNat 10 then ['\\', 'n']
  else if c = Char.ofNat 13 then ['\\', 'r']
  else if c = Char.ofNat 9 then ['\\', 't']
  else if c.toNat < 32 ∨ c = '<' ∨ c = '>' ∨ c = '&' then
    ['\\', 'u', '0', '0', hexDigit (c.toNat / 16), hexDigit (c.toNat % 16)]
  else if c.toNat = 8232 ∨ c.toNat = 8233 then
    ['\\', 'u', '2', '0', '2', hexDigit (c.toNat % 16)]
  else [c]

/-- A JSON string literal for `s`. -/
def jsonQuote (s : String) : String :=
  "\"" ++ String.mk (s.toList.foldr (fun c acc => jsonEscapeChar c ++ acc) []) ++ "\""

/-- Lexicographic order on character lists: Go's bytewise string order (UTF-8
encoding preserves codepoint order). -/
def charListLt : List Char → List Char → Bool
  | [], [] => false
  | [], _ :: _ => true
  | _ :: _, [] => false
  | a :: as, b :: bs => if a < b then true else if b < a then false else charListLt as bs

/-- Go string comparison `a < b`. -/
def strLt (a b : String) : Bool := charListLt a.toList b.toList

/-- Insertion step of sorting entries by key (Go `json.Marshal` sorts map keys). -/
def insertSorted (p : String × String) : Labels → Labels
  | [] => [p]
  | q :: rest => if strLt q.1 p.1 then q :: insertSorted p rest else p :: q :: rest

/-- Entries sorted by key ascending. -/
def sortByKey (m : Labels) : Labels := m.foldr insertSorted []

/-- `json.Marshal` of a `map[string]string`: keys sorted, entries rendered as
quoted pairs inside braces. -/
def marshalStringMap (m : Labels) : String :=
  "\x7b" ++ String.intercalate ","
    ((sortByKey m).map (fun p => jsonQuote p.1 ++ ":" ++ jsonQuote p.2)) ++ "\x7d"

/-- `writeAppliedAnnotation(ctx, c, ns, applied)` (utils.go lines 51-74),
restricted to its effect on the freshly fetched namespace's annotations:
serialize `applied`; if the annotation already holds exactly that string, do
nothing (`false` = no update call); otherwise store it (`true` = update). -/
def writeAppliedAnno (freshAnnotations : Labels) (applied : Labels) : Labels × Bool :=
  let b := marshalStringMap applied
  match lookupL freshAnnotations appliedAnnoKey with
  | some cur => if cur = b then (freshAnnotations, false)
                else (insertL freshAnnotations appliedAnnoKey b, true)
  | none => (insertL freshAnnotations appliedAnnoKey b, true)

/-!
### Derived notions used by the theorems
-/

/-- A desired pair hits the protection conflict branch of `applyProtectionLogic`:
its key is protected, the `ignoreExisting`/previously-applied override does not
apply, and the key exists on the target with a different value. -/
def isConflict (existing prevApplied : Labels) (patterns : List String)
    (ignoreExisting : Bool) (key value : String) : Bool :=
  isLabelProtected key patterns &&
    !(ignoreExisting && (lookupL prevApplied key).isSome) &&
    ((lookupL existing key).isSome && decide (getD existing key ≠ value))

/-- Extend a `ProtectionResult` by allowing every pair of a list in order. -/
def allowAll : ProtectionResult → List (String × String) → ProtectionResult
  | acc, [] => acc
  | acc, (k, v) :: rest =>
    allowAll { acc with allowedLabels := insertL acc.allowedLabels k v } rest

/-!
### Association-list map lemmas
-/

theorem lookupL_eq_none_iff (m : Labels) (key : String) :
    lookupL m key = none ↔ key ∉ keysL m := by
  induction m with
  | nil => simp [lookupL, keysL]
  | cons p rest ih =>
    obtain ⟨k, v⟩ := p
    by_cases h : k = key
    · subst h
      simp [lookupL, keysL]
    · simp [lookupL, keysL, h, ih, Ne.symm h]

theorem lookupL_isSome_of_mem {m : Labels} {k v : String} (h : (k, v) ∈ m) :
    (lookupL m k).isSome := by
  induction m with
  | nil => simp at h
  | cons p rest ih =>
    obtain ⟨k', v'⟩ := p
    rcases List.mem_cons.mp h with h1 | h1
    · simp at h1
      simp [lookupL, h1.1]
    · by_cases hk : k' = k <;> simp [lookupL, hk, ih h1]

theorem lookupL_replaceAll_self {m : Labels} {key : String} (v : String)
    (h : (lookupL m key).isSome) : lookupL (replaceAll m key v) key = some v := by
  induction m with
  | nil => simp [lookupL] at h
  | cons p rest ih =>
    obtain ⟨k', v'⟩ := p
    by_cases hk : k' = key
    · simp [replaceAll, lookupL, hk]
    · simp only [lookupL, hk, if_false] at h
      simp [replaceAll, lookupL, hk, ih h]

theorem lookupL_replaceAll_ne (m : Labels) (key v key' : String) (h : key ≠ key') :
    lookupL (replaceAll m key v) key' = lookupL m key' := by
  induction m with
  | nil => simp [replaceAll]
  | cons p rest ih =>
    obtain ⟨k', v'⟩ := p
    by_cases hk : k' = key
    · subst hk
      simp [replaceAll, lookupL, h, ih]
    · simp [replaceAll, lookupL, hk, ih]

theorem lookupL_insertL_self (m : Labels) (key v : String) :
    lookupL (insertL m key v) key = some v := by
  unfold insertL
  by_cases h : (lookupL m key).isSome
  · simp only [h, if_true]
    exact lookupL_replaceAll_self v h
  · simp only [h, if_false]
    rw [Option.not_isSome_iff_eq_none] at h
    induction m with
    | nil => simp [lookupL]
    | cons p rest ih =>
      obtain ⟨k', v'⟩ := p
      by_cases hk : k' = key
      · simp [lookupL, hk] at h
      · simp only [lookupL, hk, if_false] at h
        simpa [lookupL, hk] using ih h

theorem lookupL_append_ne (m : Labels) (key v key' : String) (h : key ≠ key') :
    lookupL (m ++ [(key, v)]) key' = lookupL m key' := by
  induction m with
  | nil => simp [lookupL, h]
  | cons p rest ih =>
    obtain ⟨k', v'⟩ := p
    by_cases hk : k' = key'
    · simp [lookupL, hk]
    · simp [lookupL, hk, ih]

theorem lookupL_insertL_ne (m : Labels) (key v key' : String) (h : key ≠ key') :
    lookupL (insertL m key v) key' = lookupL m key' := by
  unfold insertL
  by_cases hs : (lookupL m key).isSome
  · simp [hs, lookupL_replaceAll_ne _ _ _ _ h]
  · simp [hs, lookupL_append_ne _ _ _ _ h]

theorem lookupL_eraseL_self (m : Labels) (key : String) :
    lookupL (eraseL m key) key = none := by
  induction m with
  | nil => simp [eraseL, lookupL]
  | cons p rest ih =>
    obtain ⟨k', v'⟩ := p
    by_cases hk : k' = key
    · simpa [eraseL, hk] using ih
    · simpa [eraseL, lookupL, hk] using ih

theorem lookupL_eraseL_ne (m : Labels) (key key' : String) (h : key ≠ key') :
    lookupL (eraseL m key) key' = lookupL m key' := by
  induction m with
  | nil => simp [eraseL, lookupL]
  | cons p rest ih =>
    obtain ⟨k', v'⟩ := p
    by_cases hk : k' = key
    · subst hk
      simpa [eraseL, lookupL, h] using ih
    · by_cases hk' : k' = key'
      · subst hk'
        simp [eraseL, lookupL, hk]
      · simp [eraseL, lookupL, hk, hk', ih]

theorem eraseL_length_le (m : Labels) (key : String) :
    (eraseL m key).length ≤ m.length := by
  induction m with
  | nil => simp [eraseL]
  | cons p rest ih =>
    obtain ⟨k', v'⟩ := p
    by_cases hk : k' = key
    · simp only [eraseL, hk, if_true]
      exact Nat.le_succ_of_le ih
    · simp only [eraseL, hk, if_false, List.length_cons]
      exact Nat.succ_le_succ ih

theorem eraseL_length_lt {m : Labels} {key : String}
    (h : (lookupL m key).isSome) : (eraseL m key).length < m.length := by
  induction m with
  | nil => simp [lookupL] at h
  | cons p rest ih =>
    obtain ⟨k', v'⟩ := p
    by_cases hk : k' = key
    · simp only [eraseL, hk, if_true, List.length_cons]
      exact Nat.lt_succ_of_le (eraseL_length_le rest key)
    · simp only [lookupL, hk, if_false] at h
      simp only [eraseL, hk, if_false, List.length_cons]
      exact Nat.succ_lt_succ (ih h)

/-!
### Sanity checks on concrete inputs
-/

theorem sanity_glob_star : filepathMatch "kubernetes.io/*" "kubernetes.io/managed-by" = some true := by decide

theorem sanity_glob_nomatch : filepathMatch "kubernetes.io/*" "app" = some false := by decide

theorem sanity_glob_sep : filepathMatch "*" "a/b" = some false := by decide

theorem sanity_glob_question : filepathMatch "a?c" "abc" = some true := by decide

theorem sanity_glob_class : filepathMatch "[a-c]x" "bx" = some true := by decide

theorem sanity_glob_negclass : filepathMatch "[^a-c]x" "dx" = some true := by decide

theorem sanity_glob_bad : filepathMatch "[a-" "ax" = none := by decide

theorem sanity_protected_skips_empty :
    isLabelProtected "kubernetes.io/test" ["", "kubernetes.io/*"] = true := by decide

theorem sanity_scenario_A :
    applyProtectionLogic [("env", "prod"), ("kubernetes.io/managed-by", "x")]
      [("kubernetes.io/managed-by", "system")] [] ["kubernetes.io/*"]
      ProtectionModeSkip false =
    ⟨[("env", "prod")], ["kubernetes.io/managed-by"], [], false⟩ := by decide

theorem sanity_scenario_D :
    handleDeletionLabels ["a", "b"] [("a", "1"), ("b", "2"), ("c", "keep")]
      [("a", "1"), ("b", "2")] = ([("c", "keep")], true) := by decide

theorem sanity_marshal_empty : marshalStringMap [] = "\x7b\x7d" := by decide

theorem sanity_marshal_sorted :
    marshalStringMap [("b", "2"), ("a", "1")] = "\x7b\"a\":\"1\",\"b\":\"2\"\x7d" := by decide

theorem sanity_read_ok :
    readAppliedAnno [(appliedAnnoKey, "\x7b\"a\":\"1\"\x7d")] = [("a", "1")] := by decide

theorem sanity_read_malformed :
    readAppliedAnno [(appliedAnnoKey, "\x7b\"a\":\"1\",")] = [] := by decide

theorem sanity_read_garbage : readAppliedAnno [(appliedAnnoKey, "not json")] = [] := by decide

theorem sanity_read_typeerror :
    readAppliedAnno [(appliedAnnoKey, "\x7b\"a\":1,\"b\":\"2\"\x7d")] = [("b", "2")] := by decide

theorem sanity_roundtrip :
    readAppliedAnno ((writeAppliedAnno [] [("a", "1")]).1) = [("a", "1")] := by decide

/-!
### Protection evaluator lemmas
-/

theorem applyProtectionGo_cons_cases (existing prevApplied : Labels)
    (patterns : List String) (mode : ProtectionMode) (ignoreExisting : Bool)
    (key value : String) (rest : List (String × String)) (acc : ProtectionResult) :
    (isConflict existing prevApplied patterns ignoreExisting key value = false ∧
      applyProtectionGo existing prevApplied patterns mode ignoreExisting
          ((key, value) :: rest) acc =
        applyProtectionGo existing prevApplied patterns mode ignoreExisting rest
          { acc with allowedLabels := insertL acc.allowedLabels key value }) ∨
    (isConflict existing prevApplied patterns ignoreExisting key value = true ∧
      mode = ProtectionModeFail ∧
      applyProtectionGo existing prevApplied patterns mode ignoreExisting
          ((key, value) :: rest) acc =
        { acc with shouldFail := true,
                   warnings := acc.warnings ++
                     [protectionWarning key (getD existing key) value] }) ∨
    (isConflict existing prevApplied patterns ignoreExisting key value = true ∧
      mode ≠ ProtectionModeFail ∧
      ((applyProtectionGo existing prevApplied patterns mode ignoreExisting
            ((key, value) :: rest) acc =
          applyProtectionGo existing prevApplied patterns mode ignoreExisting rest
            { acc with
                warnings := acc.warnings ++
                  [protectionWarning key (getD existing key) value],
                protectedSkipped := acc.protectedSkipped ++ [key] }) ∨
       (applyProtectionGo existing prevApplied patterns mode ignoreExisting
            ((key, value) :: rest) acc =
          applyProtectionGo existing prevApplied patterns mode ignoreExisting rest
            { acc with protectedSkipped := acc.protectedSkipped ++ [key] }))) := by
  by_cases hp : isLabelProtected key patterns
  · by_cases hig : (ignoreExisting && (lookupL prevApplied key).isSome) = true
    · left
      refine ⟨by simp [isConflict, hig], ?_⟩
      simp only [applyProtectionGo, hp, if_true, hig]
    · by_cases hcf : ((lookupL existing key).isSome = true ∧ getD existing key ≠ value)
      · have hconf : isConflict existing prevApplied patterns ignoreExisting key value = true := by
          simp only [isConflict, hp, Bool.true_and]
          simp [hig, hcf.1, hcf.2]
        by_cases hm : mode = ProtectionModeFail
        · right; left
          refine ⟨hconf, hm, ?_⟩
          simp only [applyProtectionGo, hp, if_true]
          rw [if_neg (by simp [hig]), if_pos (by exact ⟨hcf.1, hcf.2⟩), if_pos hm]
        · right; right
          refine ⟨hconf, hm, ?_⟩
          by_cases hw : mode = ProtectionModeWarn
          · left
            simp only [applyProtectionGo, hp, if_true]
            rw [if_neg (by simp [hig]), if_pos (by exact ⟨hcf.1, hcf.2⟩), if_neg hm, if_pos hw]
          · right
            simp only [applyProtectionGo, hp, if_true]
            rw [if_neg (by simp [hig]), if_pos (by exact ⟨hcf.1, hcf.2⟩), if_neg hm, if_neg hw]
      · left
        refine ⟨?_, ?_⟩
        · simp only [isConflict, hp, Bool.true_and]
          rcases Decidable.not_and_iff_or_not.mp hcf with h1 | h1
          · simp [Bool.eq_false_iff.mpr h1]
          · simp at h1
            simp [h1]
        · simp only [applyProtectionGo, hp, if_true]
          rw [if_neg (by simp [hig]), if_neg hcf]
  · left
    refine ⟨by simp [isConflict, hp], ?_⟩
    simp [applyProtectionGo, hp]

theorem allowAll_warnings : ∀ (pre : List (String × String)) (acc : ProtectionResult),
    (allowAll acc pre).warnings = acc.warnings
  | [], _ => rfl
  | (_, _) :: rest, _ => allowAll_warnings rest _

theorem allowAll_skipped : ∀ (pre : List (String × String)) (acc : ProtectionResult),
    (allowAll acc pre).protectedSkipped = acc.protectedSkipped
  | [], _ => rfl
  | (_, _) :: rest, _ => allowAll_skipped rest _

theorem allowAll_shouldFail : ∀ (pre : List (String × String)) (acc : ProtectionResult),
    (allowAll acc pre).shouldFail = acc.shouldFail
  | [], _ => rfl
  | (_, _) :: rest, _ => allowAll_shouldFail rest _

theorem allowAll_lookup (k : String) :
    ∀ (pre : List (String × String)) (acc : ProtectionResult),
      (∀ p ∈ pre, p.1 ≠ k) →
      lookupL (allowAll acc pre).allowedLabels k = lookupL acc.allowedLabels k := by
  intro pre
  induction pre with
  | nil => intro acc _; rfl
  | cons p rest ih =>
    intro acc h
    obtain ⟨key, value⟩ := p
    have hk : key ≠ k := h (key, value) (List.mem_cons_self _ _)
    have hrest : ∀ p ∈ rest, p.1 ≠ k := fun q hq => h q (List.mem_cons_of_mem _ hq)
    simp only [allowAll]
    rw [ih _ hrest]
    exact lookupL_insertL_ne _ _ _ _ hk

theorem applyProtectionGo_shouldFail_stable (existing prevApplied : Labels)
    (patterns : List String) (mode : ProtectionMode) (ignoreExisting : Bool)
    (hmode : mode ≠ ProtectionModeFail) :
    ∀ (list : List (String × String)) (acc : ProtectionResult),
      (applyProtectionGo existing prevApplied patterns mode ignoreExisting list acc).shouldFail =
        acc.shouldFail := by
  intro list
  induction list with
  | nil => intro acc; rfl
  | cons p rest ih =>
    intro acc
    obtain ⟨key, value⟩ := p
    rcases applyProtectionGo_cons_cases existing prevApplied patterns mode ignoreExisting
        key value rest acc with
      ⟨_, heq⟩ | ⟨_, hm, _⟩ | ⟨_, _, heq | heq⟩
    · rw [heq]; exact ih _
    · exact absurd hm hmode
    · rw [heq]; exact ih _
    · rw [heq]; exact ih _

theorem applyProtectionGo_fail_result (existing prevApplied : Labels)
    (patterns : List String) (ignoreExisting : Bool) :
    ∀ (list : List (String × String)) (acc : ProtectionResult),
      acc.shouldFail = false →
      (applyProtectionGo existing prevApplied patterns ProtectionModeFail ignoreExisting
        list acc).shouldFail = true →
      ∃ m,
        (applyProtectionGo existing prevApplied patterns ProtectionModeFail ignoreExisting
          list acc).warnings = acc.warnings ++ [m] ∧
        (applyProtectionGo existing prevApplied patterns ProtectionModeFail ignoreExisting
          list acc).protectedSkipped = acc.protectedSkipped := by
  intro list
  induction list with
  | nil =>
    intro acc h0 h1
    simp only [applyProtectionGo] at h1
    rw [h0] at h1
    cases h1
  | cons p rest ih =>
    intro acc h0 h1
    obtain ⟨key, value⟩ := p
    rcases applyProtectionGo_cons_cases existing prevApplied patterns ProtectionModeFail
        ignoreExisting key value rest acc with
      ⟨_, heq⟩ | ⟨_, _, heq⟩ | ⟨_, hm, _⟩
    · rw [heq] at h1 ⊢
      exact ih _ h0 h1
    · rw [heq]
      exact ⟨_, rfl, rfl⟩
    · exact absurd rfl hm

theorem applyProtectionGo_allowed_stable (existing prevApplied : Labels)
    (patterns : List String) (mode : ProtectionMode) (ignoreExisting : Bool) (k : String) :
    ∀ (list : List (String × String)) (acc : ProtectionResult),
      (∀ p ∈ list, p.1 ≠ k) →
      lookupL (applyProtectionGo existing prevApplied patterns mode ignoreExisting
        list acc).allowedLabels k = lookupL acc.allowedLabels k := by
  intro list
  induction list with
  | nil => intro acc _; rfl
  | cons p rest ih =>
    intro acc h
    obtain ⟨key, value⟩ := p
    have hk : key ≠ k := h (key, value) (List.mem_cons_self _ _)
    have hrest : ∀ p ∈ rest, p.1 ≠ k := fun q hq => h q (List.mem_cons_of_mem _ hq)
    rcases applyProtectionGo_cons_cases existing prevApplied patterns mode ignoreExisting
        key value rest acc with
      ⟨_, heq⟩ | ⟨_, _, heq⟩ | ⟨_, _, heq | heq⟩
    · rw [heq, ih _ hrest]
      exact lookupL_insertL_ne _ _ _ _ hk
    · rw [heq]
    · rw [heq, ih _ hrest]
    · rw [heq, ih _ hrest]

theorem applyProtectionGo_allowed_none (existing prevApplied : Labels)
    (patterns : List String) (mode : ProtectionMode) (ignoreExisting : Bool) (k : String) :
    ∀ (list : List (String × String)) (acc : ProtectionResult),
      (∀ v', (k, v') ∈ list →
        isConflict existing prevApplied patterns ignoreExisting k v' = true) →
      lookupL acc.allowedLabels k = none →
      lookupL (applyProtectionGo existing prevApplied patterns mode ignoreExisting
        list acc).allowedLabels k = none := by
  intro list
  induction list with
  | nil => intro acc _ hnone; exact hnone
  | cons p rest ih =>
    intro acc hlist hnone
    obtain ⟨key, value⟩ := p
    have hrest : ∀ v', (k, v') ∈ rest →
        isConflict existing prevApplied patterns ignoreExisting k v' = true :=
      fun v' hv => hlist v' (List.mem_cons_of_mem _ hv)
    by_cases hkey : key = k
    · subst hkey
      have hc : isConflict existing prevApplied patterns ignoreExisting key value = true :=
        hlist value (List.mem_cons_self _ _)
      rcases applyProtectionGo_cons_cases existing prevApplied patterns mode ignoreExisting
          key value rest acc with
        ⟨hc', _⟩ | ⟨_, _, heq⟩ | ⟨_, _, heq | heq⟩
      · rw [hc] at hc'; cases hc'
      · rw [heq]; exact hnone
      · rw [heq]; exact ih _ hrest hnone
      · rw [heq]; exact ih _ hrest hnone
    · rcases applyProtectionGo_cons_cases existing prevApplied patterns mode ignoreExisting
          key value rest acc with
        ⟨_, heq⟩ | ⟨_, _, heq⟩ | ⟨_, _, heq | heq⟩
      · rw [heq]
        refine ih _ hrest ?_
        rw [lookupL_insertL_ne _ _ _ _ hkey]
        exact hnone
      · rw [heq]; exact hnone
      · rw [heq]; exact ih _ hrest hnone
      · rw [heq]; exact ih _ hrest hnone

theorem applyProtectionGo_override_allowed (existing prevApplied : Labels)
    (patterns : List String) (mode : ProtectionMode) (k v : String)
    (hprev : (lookupL prevApplied k).isSome = true) :
    ∀ (list : List (String × String)) (acc : ProtectionResult),
      NodupKeys list → (k, v) ∈ list →
      (applyProtectionGo existing prevApplied patterns mode true list acc).shouldFail = false →
      lookupL (applyProtectionGo existing prevApplied patterns mode true
        list acc).allowedLabels k = some v := by
  intro list
  induction list with
  | nil => intro acc _ hmem _; cases hmem
  | cons p rest ih =>
    intro acc hnodup hmem hfail
    obtain ⟨key, value⟩ := p
    have hnodup' : NodupKeys rest := (List.nodup_cons.mp hnodup).2
    rcases List.mem_cons.mp hmem with heq | hmem'
    · obtain ⟨hk, hv⟩ := Prod.mk.injEq .. ▸ heq
      subst hk; subst hv
      have hc : isConflict existing prevApplied patterns true k v = false := by
        simp [isConflict, hprev]
      rcases applyProtectionGo_cons_cases existing prevApplied patterns mode true
          k v rest acc with
        ⟨_, heq2⟩ | ⟨hc', _, _⟩ | ⟨hc', _, _⟩
      · rw [heq2]
        have hknotin : ∀ p ∈ rest, p.1 ≠ k := by
          intro q hq hqk
          have hmap : q.1 ∈ List.map Prod.fst rest := List.mem_map_of_mem Prod.fst hq
          rw [hqk] at hmap
          exact (List.nodup_cons.mp hnodup).1 hmap
        rw [applyProtectionGo_allowed_stable _ _ _ _ _ _ _ _ hknotin]
        exact lookupL_insertL_self _ _ _
      · rw [hc] at hc'; cases hc'
      · rw [hc] at hc'; cases hc'
    · have hkey : key ≠ k := by
        intro heqk
        have hmap : k ∈ List.map Prod.fst rest := List.mem_map_of_mem Prod.fst hmem'
        rw [← heqk] at hmap
        exact (List.nodup_cons.mp hnodup).1 hmap
      rcases applyProtectionGo_cons_cases existing prevApplied patterns mode true
          key value rest acc with
        ⟨_, heq2⟩ | ⟨_, _, heq2⟩ | ⟨_, _, heq2 | heq2⟩
      · rw [heq2] at hfail ⊢
        exact ih _ hnodup' hmem' hfail
      · rw [heq2] at hfail
        cases hfail
      · rw [heq2] at hfail ⊢
        exact ih _ hnodup' hmem' hfail
      · rw [heq2] at hfail ⊢
        exact ih _ hnodup' hmem' hfail

theorem applyProtectionGo_append_nonconflicts (existing prevApplied : Labels)
    (patterns : List String) (mode : ProtectionMode) (ignoreExisting : Bool) :
    ∀ (pre : List (String × String)) (acc : ProtectionResult),
      (∀ p ∈ pre, isConflict existing prevApplied patterns ignoreExisting p.1 p.2 = false) →
      ∀ rest, applyProtectionGo existing prevApplied patterns mode ignoreExisting
          (pre ++ rest) acc =
        applyProtectionGo existing prevApplied patterns mode ignoreExisting rest
          (allowAll acc pre) := by
  intro pre
  induction pre with
  | nil => intro acc _ rest; rfl
  | cons p pre' ih =>
    intro acc h rest
    obtain ⟨key, value⟩ := p
    have hc : isConflict existing prevApplied patterns ignoreExisting key value = false :=
      h (key, value) (List.mem_cons_self _ _)
    have h' : ∀ p ∈ pre', isConflict existing prevApplied patterns ignoreExisting p.1 p.2 = false :=
      fun q hq => h q (List.mem_cons_of_mem _ hq)
    rcases applyProtectionGo_cons_cases existing prevApplied patterns mode ignoreExisting
        key value (pre' ++ rest) acc with
      ⟨_, heq⟩ | ⟨hc', _, _⟩ | ⟨hc', _, _⟩
    · rw [List.cons_append, heq, ih _ h' rest]
      rfl
    · rw [hc] at hc'; cases hc'
    · rw [hc] at hc'; cases hc'

/-!
### Merge-engine lemmas
-/

theorem removeStaleGo_preserve (desired : Labels) (k : String) :
    ∀ (list : List (String × String)) (cur : Labels) (c : Bool),
      (∀ p ∈ list, p.1 ≠ k) →
      lookupL (removeStaleGo desired list cur c).1 k = lookupL cur k := by
  intro list
  induction list with
  | nil => intro cur c _; rfl
  | cons p rest ih =>
    intro cur c h
    obtain ⟨key, pv⟩ := p
    have hk : key ≠ k := h (key, pv) (List.mem_cons_self _ _)
    have hrest : ∀ p ∈ rest, p.1 ≠ k := fun q hq => h q (List.mem_cons_of_mem _ hq)
    simp only [removeStaleGo]
    by_cases hw : (lookupL desired key).isSome = true
    · rw [if_pos hw]
      exact ih _ _ hrest
    · rw [if_neg hw]
      by_cases he : lookupL cur key = some pv
      · rw [if_pos he, ih _ _ hrest]
        exact lookupL_eraseL_ne _ _ _ hk
      · rw [if_neg he]
        exact ih _ _ hrest

theorem removeStaleGo_flag_true (desired : Labels) :
    ∀ (list : List (String × String)) (cur : Labels),
      (removeStaleGo desired list cur true).2 = true := by
  intro list
  induction list with
  | nil => intro cur; rfl
  | cons p rest ih =>
    intro cur
    obtain ⟨key, pv⟩ := p
    simp only [removeStaleGo]
    by_cases hw : (lookupL desired key).isSome = true
    · rw [if_pos hw]; exact ih _
    · rw [if_neg hw]
      by_cases he : lookupL cur key = some pv
      · rw [if_pos he]; exact ih _
      · rw [if_neg he]; exact ih _

theorem removeStaleGo_id_of_unchanged (desired : Labels) :
    ∀ (list : List (String × String)) (cur : Labels),
      (removeStaleGo desired list cur false).2 = false →
      (removeStaleGo desired list cur false).1 = cur := by
  intro list
  induction list with
  | nil => intro cur _; rfl
  | cons p rest ih =>
    intro cur hf
    obtain ⟨key, pv⟩ := p
    simp only [removeStaleGo] at hf ⊢
    by_cases hw : (lookupL desired key).isSome = true
    · rw [if_pos hw] at hf ⊢
      exact ih _ hf
    · rw [if_neg hw] at hf ⊢
      by_cases he : lookupL cur key = some pv
      · rw [if_pos he] at hf
        rw [removeStaleGo_flag_true] at hf
        cases hf
      · rw [if_neg he] at hf ⊢
        exact ih _ hf

theorem removeStaleGo_len_le (desired : Labels) :
    ∀ (list : List (String × String)) (cur : Labels) (c : Bool),
      (removeStaleGo desired list cur c).1.length ≤ cur.length := by
  intro list
  induction list with
  | nil => intro cur c; exact Nat.le_refl _
  | cons p rest ih =>
    intro cur c
    obtain ⟨key, pv⟩ := p
    simp only [removeStaleGo]
    by_cases hw : (lookupL desired key).isSome = true
    · rw [if_pos hw]; exact ih _ _
    · rw [if_neg hw]
      by_cases he : lookupL cur key = some pv
      · rw [if_pos he]
        exact Nat.le_trans (ih _ _) (eraseL_length_le _ _)
      · rw [if_neg he]; exact ih _ _

theorem removeStaleGo_len_lt_of_changed (desired : Labels) :
    ∀ (list : List (String × String)) (cur : Labels),
      (removeStaleGo desired list cur false).2 = true →
      (removeStaleGo desired list cur false).1.length < cur.length := by
  intro list
  induction list with
  | nil => intro cur hf; cases hf
  | cons p rest ih =>
    intro cur hf
    obtain ⟨key, pv⟩ := p
    simp only [removeStaleGo] at hf ⊢
    by_cases hw : (lookupL desired key).isSome = true
    · rw [if_pos hw] at hf ⊢
      exact ih _ hf
    · rw [if_neg hw] at hf ⊢
      by_cases he : lookupL cur key = some pv
      · rw [if_pos he]
        have hsome : (lookupL cur key).isSome := by rw [he]; rfl
        exact Nat.lt_of_le_of_lt (removeStaleGo_len_le _ _ _ _) (eraseL_length_lt hsome)
      · rw [if_neg he] at hf ⊢
        exact ih _ hf

theorem removeStaleLabels_changed_iff (current desired prevApplied : Labels) :
    (removeStaleLabels current desired prevApplied).2 = true ↔
      (removeStaleLabels current desired prevApplied).1 ≠ current := by
  unfold removeStaleLabels
  constructor
  · intro h
    have hlt := removeStaleGo_len_lt_of_changed desired prevApplied current h
    intro heq
    rw [heq] at hlt
    exact Nat.lt_irrefl _ hlt
  · intro h
    by_cases hc : (removeStaleGo desired prevApplied current false).2 = true
    · exact hc
    · exact absurd (removeStaleGo_id_of_unchanged desired prevApplied current
        (Bool.not_eq_true _ ▸ hc)) h

theorem applyDesiredGo_preserve (k : String) :
    ∀ (list : List (String × String)) (cur : Labels) (c : Bool),
      (∀ p ∈ list, p.1 ≠ k) →
      lookupL (applyDesiredGo list cur c).1 k = lookupL cur k := by
  intro list
  induction list with
  | nil => intro cur c _; rfl
  | cons p rest ih =>
    intro cur c h
    obtain ⟨key, v⟩ := p
    have hk : key ≠ k := h (key, v) (List.mem_cons_self _ _)
    have hrest : ∀ p ∈ rest, p.1 ≠ k := fun q hq => h q (List.mem_cons_of_mem _ hq)
    simp only [applyDesiredGo]
    by_cases hg : getD cur key ≠ v
    · rw [if_pos hg, ih _ _ hrest]
      exact lookupL_insertL_ne _ _ _ _ hk
    · rw [if_neg hg]
      exact ih _ _ hrest

theorem applyDesiredGo_flag_true :
    ∀ (list : List (String × String)) (cur : Labels),
      (applyDesiredGo list cur true).2 = true := by
  intro list
  induction list with
  | nil => intro cur; rfl
  | cons p rest ih =>
    intro cur
    obtain ⟨key, v⟩ := p
    simp only [applyDesiredGo]
    by_cases hg : getD cur key ≠ v
    · rw [if_pos hg]; exact ih _
    · rw [if_neg hg]; exact ih _

theorem applyDesiredGo_id_of_unchanged :
    ∀ (list : List (String × String)) (cur : Labels),
      (applyDesiredGo list cur false).2 = false →
      (applyDesiredGo list cur false).1 = cur := by
  intro list
  induction list with
  | nil => intro cur _; rfl
  | cons p rest ih =>
    intro cur hf
    obtain ⟨key, v⟩ := p
    simp only [applyDesiredGo] at hf ⊢
    by_cases hg : getD cur key ≠ v
    · rw [if_pos hg] at hf
      rw [applyDesiredGo_flag_true] at hf
      cases hf
    · rw [if_neg hg] at hf ⊢
      exact ih _ hf

theorem applyDesiredGo_ne_of_changed :
    ∀ (list : List (String × String)) (cur : Labels),
      NodupKeys list →
      (applyDesiredGo list cur false).2 = true →
      (applyDesiredGo list cur false).1 ≠ cur := by
  intro list
  induction list with
  | nil => intro cur _ hf; cases hf
  | cons p rest ih =>
    intro cur hnodup hf
    obtain ⟨key, v⟩ := p
    have hknotin : ∀ p ∈ rest, p.1 ≠ key := by
      intro q hq hqk
      have hmap : q.1 ∈ List.map Prod.fst rest := List.mem_map_of_mem Prod.fst hq
      rw [hqk] at hmap
      exact (List.nodup_cons.mp hnodup).1 hmap
    simp only [applyDesiredGo] at hf ⊢
    by_cases hg : getD cur key ≠ v
    · rw [if_pos hg]
      intro heq
      have hlook : lookupL (applyDesiredGo rest (insertL cur key v) true).1 key = some v := by
        rw [applyDesiredGo_preserve key rest _ _ hknotin]
        exact lookupL_insertL_self _ _ _
      rw [heq] at hlook
      apply hg
      rw [getD, hlook]
      rfl
    · rw [if_neg hg] at hf ⊢
      exact ih _ (List.nodup_cons.mp hnodup).2 hf

theorem applyDesiredLabels_changed_iff (current desired : Labels) (hnodup : NodupKeys desired) :
    (applyDesiredLabels current desired).2 = true ↔
      (applyDesiredLabels current desired).1 ≠ current := by
  unfold applyDesiredLabels
  constructor
  · exact applyDesiredGo_ne_of_changed desired current hnodup
  · intro h
    by_cases hc : (applyDesiredGo desired current false).2 = true
    · exact hc
    · exact absurd (applyDesiredGo_id_of_unchanged desired current
        (Bool.not_eq_true _ ▸ hc)) h

theorem applyDesiredGo_getD_inv :
    ∀ (list : List (String × String)) (cur : Labels) (c : Bool),
      NodupKeys list →
      ∀ k v, (k, v) ∈ list → getD (applyDesiredGo list cur c).1 k = v := by
  intro list
  induction list with
  | nil => intro cur c _ k v hmem; cases hmem
  | cons p rest ih =>
    intro cur c hnodup k v hmem
    obtain ⟨key, value⟩ := p
    have hknotin : ∀ p ∈ rest, p.1 ≠ key := by
      intro q hq hqk
      have hmap : q.1 ∈ List.map Prod.fst rest := List.mem_map_of_mem Prod.fst hq
      rw [hqk] at hmap
      exact (List.nodup_cons.mp hnodup).1 hmap
    rcases List.mem_cons.mp hmem with heq | hmem'
    · obtain ⟨hk, hv⟩ := Prod.mk.injEq .. ▸ heq
      subst hk; subst hv
      simp only [applyDesiredGo]
      by_cases hg : getD cur k ≠ v
      · rw [if_pos hg, getD, applyDesiredGo_preserve k rest _ _ hknotin, lookupL_insertL_self]
        rfl
      · rw [if_neg hg, getD, applyDesiredGo_preserve k rest _ _ hknotin]
        exact Decidable.not_not.mp hg
    · simp only [applyDesiredGo]
      by_cases hg : getD cur key ≠ value
      · rw [if_pos hg]
        exact ih _ _ (List.nodup_cons.mp hnodup).2 k v hmem'
      · rw [if_neg hg]
        exact ih _ _ (List.nodup_cons.mp hnodup).2 k v hmem'

theorem applyDesiredGo_id_of_inv :
    ∀ (list : List (String × String)) (cur : Labels),
      (∀ p ∈ list, getD cur p.1 = p.2) →
      applyDesiredGo list cur false = (cur, false) := by
  intro list
  induction list with
  | nil => intro cur _; rfl
  | cons p rest ih =>
    intro cur h
    obtain ⟨key, value⟩ := p
    have hkey : getD cur key = value := h (key, value) (List.mem_cons_self _ _)
    simp only [applyDesiredGo]
    rw [if_neg (by simp [hkey])]
    exact ih _ (fun q hq => h q (List.mem_cons_of_mem _ hq))

theorem removeStaleGo_id_of_all_wanted (desired : Labels) :
    ∀ (list : List (String × String)) (cur : Labels) (c : Bool),
      (∀ p ∈ list, (lookupL desired p.1).isSome) →
      removeStaleGo desired list cur c = (cur, c) := by
  intro list
  induction list with
  | nil => intro cur c _; rfl
  | cons p rest ih =>
    intro cur c h
    obtain ⟨key, pv⟩ := p
    have hkey : (lookupL desired key).isSome = true := h (key, pv) (List.mem_cons_self _ _)
    simp only [removeStaleGo]
    rw [if_pos hkey]
    exact ih _ _ (fun q hq => h q (List.mem_cons_of_mem _ hq))

theorem reconcileUpsertGo_preserve (k : String) :
    ∀ (list : List (String × String)) (cur : Labels) (c : Bool),
      (∀ p ∈ list, p.1 ≠ k) →
      lookupL (reconcileUpsertGo list cur c).1 k = lookupL cur k := by
  intro list
  induction list with
  | nil => intro cur c _; rfl
  | cons p rest ih =>
    intro cur c h
    obtain ⟨key, v⟩ := p
    have hk : key ≠ k := h (key, v) (List.mem_cons_self _ _)
    have hrest : ∀ p ∈ rest, p.1 ≠ k := fun q hq => h q (List.mem_cons_of_mem _ hq)
    simp only [reconcileUpsertGo]
    by_cases hg : lookupL cur key ≠ some v
    · rw [if_pos hg, ih _ _ hrest]
      exact lookupL_insertL_ne _ _ _ _ hk
    · rw [if_neg hg]
      exact ih _ _ hrest

/-!
### Deletion-handler lemmas
-/

theorem handleDeletionGo_none (prevApplied : Labels) (k : String) :
    ∀ (ks : List String) (labels : Labels) (c : Bool),
      lookupL labels k = none →
      lookupL (handleDeletionGo prevApplied ks labels c).1 k = none := by
  intro ks
  induction ks with
  | nil => intro labels c h; exact h
  | cons key rest ih =>
    intro labels c h
    simp only [handleDeletionGo]
    by_cases hdel : (lookupL prevApplied key).isSome ∧ lookupL labels key = lookupL prevApplied key
    · rw [if_pos hdel]
      refine ih _ _ ?_
      by_cases hkk : key = k
      · rw [hkk]; exact lookupL_eraseL_self _ _
      · rw [lookupL_eraseL_ne _ _ _ hkk]; exact h
    · rw [if_neg hdel]
      exact ih _ _ h

theorem handleDeletionGo_deleted (prevApplied : Labels) (k pv : String)
    (hprev : lookupL prevApplied k = some pv) :
    ∀ (ks : List String) (labels : Labels) (c : Bool),
      k ∈ ks → lookupL labels k = some pv →
      lookupL (handleDeletionGo prevApplied ks labels c).1 k = none := by
  intro ks
  induction ks with
  | nil => intro labels c hmem _; cases hmem
  | cons key rest ih =>
    intro labels c hmem hcur
    by_cases hkk : key = k
    · subst hkk
      simp only [handleDeletionGo]
      rw [if_pos ⟨by rw [hprev]; rfl, by rw [hprev, hcur]⟩]
      exact handleDeletionGo_none _ _ _ _ _ (lookupL_eraseL_self _ _)
    · have hmem' : k ∈ rest := by
        rcases List.mem_cons.mp hmem with h | h
        · exact absurd h.symm hkk
        · exact h
      simp only [handleDeletionGo]
      by_cases hdel : (lookupL prevApplied key).isSome ∧ lookupL labels key = lookupL prevApplied key
      · rw [if_pos hdel]
        refine ih _ _ hmem' ?_
        rw [lookupL_eraseL_ne _ _ _ hkk]
        exact hcur
      · rw [if_neg hdel]
        exact ih _ _ hmem' hcur

theorem handleDeletionGo_preserve_notin (prevApplied : Labels) (k : String) :
    ∀ (ks : List String) (labels : Labels) (c : Bool),
      k ∉ ks →
      lookupL (handleDeletionGo prevApplied ks labels c).1 k = lookupL labels k := by
  intro ks
  induction ks with
  | nil => intro labels c _; rfl
  | cons key rest ih =>
    intro labels c hmem
    have hkk : key ≠ k := fun h => hmem (h ▸ List.mem_cons_self _ _)
    have hrest : k ∉ rest := fun h => hmem (List.mem_cons_of_mem _ h)
    simp only [handleDeletionGo]
    by_cases hdel : (lookupL prevApplied key).isSome ∧ lookupL labels key = lookupL prevApplied key
    · rw [if_pos hdel, ih _ _ hrest]
      exact lookupL_eraseL_ne _ _ _ hkk
    · rw [if_neg hdel]
      exact ih _ _ hrest

theorem handleDeletionGo_preserve_nomatch (prevApplied : Labels) (k : String) :
    ∀ (ks : List String) (labels : Labels) (c : Bool),
      (∀ pv, lookupL prevApplied k = some pv → lookupL labels k ≠ some pv) →
      lookupL (handleDeletionGo prevApplied ks labels c).1 k = lookupL labels k := by
  intro ks
  induction ks with
  | nil => intro labels c _; rfl
  | cons key rest ih =>
    intro labels c h
    simp only [handleDeletionGo]
    by_cases hkk : key = k
    · subst hkk
      by_cases hdel : (lookupL prevApplied key).isSome ∧ lookupL labels key = lookupL prevApplied key
      · exfalso
        obtain ⟨hs, heq⟩ := hdel
        cases hp : lookupL prevApplied key with
        | none => rw [hp] at hs; cases hs
        | some pv =>
          rw [hp] at heq
          exact h pv hp heq
      · rw [if_neg hdel]
        exact ih _ _ h
    · by_cases hdel : (lookupL prevApplied key).isSome ∧ lookupL labels key = lookupL prevApplied key
      · rw [if_pos hdel, ih _ _ ?_]
        · exact lookupL_eraseL_ne _ _ _ hkk
        · intro pv h1 h2
          rw [lookupL_eraseL_ne _ _ _ hkk] at h2
          exact h pv h1 h2
      · rw [if_neg hdel]
        exact ih _ _ h

/-!
### Annotation-tracker lemmas
-/

theorem writeAppliedAnno_lookup (anns applied : Labels) :
    lookupL (writeAppliedAnno anns applied).1 appliedAnnoKey =
      some (marshalStringMap applied) := by
  cases h : lookupL anns appliedAnnoKey with
  | none =>
    have hw : writeAppliedAnno anns applied =
        (insertL anns appliedAnnoKey (marshalStringMap applied), true) := by
      unfold writeAppliedAnno
      rw [h]
    rw [hw]
    exact lookupL_insertL_self _ _ _
  | some cur =>
    have hw : writeAppliedAnno anns applied =
        if cur = marshalStringMap applied then (anns, false)
        else (insertL anns appliedAnnoKey (marshalStringMap applied), true) := by
      unfold writeAppliedAnno
      rw [h]
    by_cases he : cur = marshalStringMap applied
    · rw [hw, if_pos he]
      show lookupL anns appliedAnnoKey = some (marshalStringMap applied)
      rw [h, he]
    · rw [hw, if_neg he]
      exact lookupL_insertL_self _ _ _

theorem writeAppliedAnno_noop (anns applied : Labels)
    (h : lookupL anns appliedAnnoKey = some (marshalStringMap applied)) :
    writeAppliedAnno anns applied = (anns, false) := by
  simp [writeAppliedAnno, h]

theorem readAppliedAnno_of_empty_marshal (anns : Labels)
    (h : lookupL anns appliedAnnoKey = some (marshalStringMap [])) :
    readAppliedAnno anns = [] := by
  unfold readAppliedAnno
  rw [h, sanity_marshal_empty]
  decide

theorem applyDesiredGo_sets (k v : String) :
    ∀ (list : List (String × String)) (cur : Labels) (c : Bool),
      NodupKeys list → (k, v) ∈ list → getD cur k ≠ v →
      lookupL (applyDesiredGo list cur c).1 k = some v := by
  intro list
  induction list with
  | nil => intro cur c _ hmem _; cases hmem
  | cons p rest ih =>
    intro cur c hnodup hmem hg
    obtain ⟨key, value⟩ := p
    rcases List.mem_cons.mp hmem with heq | hmem'
    · obtain ⟨hk, hv⟩ := Prod.mk.injEq .. ▸ heq
      subst hk; subst hv
      have hknotin : ∀ p ∈ rest, p.1 ≠ k := by
        intro q hq hqk
        have hmap : q.1 ∈ List.map Prod.fst rest := List.mem_map_of_mem Prod.fst hq
        rw [hqk] at hmap
        exact (List.nodup_cons.mp hnodup).1 hmap
      simp only [applyDesiredGo]
      rw [if_pos hg, applyDesiredGo_preserve k rest _ _ hknotin]
      exact lookupL_insertL_self _ _ _
    · have hkey : key ≠ k := by
        intro heqk
        have hmap : k ∈ List.map Prod.fst rest := List.mem_map_of_mem Prod.fst hmem'
        rw [← heqk] at hmap
        exact (List.nodup_cons.mp hnodup).1 hmap
      simp only [applyDesiredGo]
      by_cases hg2 : getD cur key ≠ value
      · rw [if_pos hg2]
        refine ih _ _ (List.nodup_cons.mp hnodup).2 hmem' ?_
        rw [getD, lookupL_insertL_ne _ _ _ _ hkey]
        exact hg
      · rw [if_neg hg2]
        exact ih _ _ (List.nodup_cons.mp hnodup).2 hmem' hg

theorem applyDesiredGo_keeps (k v : String) :
    ∀ (list : List (String × String)) (cur : Labels) (c : Bool),
      NodupKeys list → (k, v) ∈ list → getD cur k = v →
      lookupL (applyDesiredGo list cur c).1 k = lookupL cur k := by
  intro list
  induction list with
  | nil => intro cur c _ hmem _; cases hmem
  | cons p rest ih =>
    intro cur c hnodup hmem hg
    obtain ⟨key, value⟩ := p
    rcases List.mem_cons.mp hmem with heq | hmem'
    · obtain ⟨hk, hv⟩ := Prod.mk.injEq .. ▸ heq
      subst hk; subst hv
      have hknotin : ∀ p ∈ rest, p.1 ≠ k := by
        intro q hq hqk
        have hmap : q.1 ∈ List.map Prod.fst rest := List.mem_map_of_mem Prod.fst hq
        rw [hqk] at hmap
        exact (List.nodup_cons.mp hnodup).1 hmap
      simp only [applyDesiredGo]
      rw [if_neg (by simp [hg])]
      exact applyDesiredGo_preserve k rest _ _ hknotin
    · have hkey : key ≠ k := by
        intro heqk
        have hmap : k ∈ List.map Prod.fst rest := List.mem_map_of_mem Prod.fst hmem'
        rw [← heqk] at hmap
        exact (List.nodup_cons.mp hnodup).1 hmap
      simp only [applyDesiredGo]
      by_cases hg2 : getD cur key ≠ value
      · rw [if_pos hg2]
        have hpres : lookupL (insertL cur key value) k = lookupL cur k :=
          lookupL_insertL_ne _ _ _ _ hkey
        rw [ih _ _ (List.nodup_cons.mp hnodup).2 hmem' (by rw [getD, hpres]; exact hg), hpres]
      · rw [if_neg hg2]
        exact ih _ _ (List.nodup_cons.mp hnodup).2 hmem' hg

theorem removeStaleGo_hit (desired : Labels) (k pv : String)
    (hnd : lookupL desired k = none) :
    ∀ (list : List (String × String)) (cur : Labels) (c : Bool),
      NodupKeys list → lookupL list k = some pv →
      (lookupL cur k = some pv →
        lookupL (removeStaleGo desired list cur c).1 k = none) ∧
      (∀ cv, lookupL cur k = some cv → cv ≠ pv →
        lookupL (removeStaleGo desired list cur c).1 k = some cv) := by
  intro list
  induction list with
  | nil => intro cur c _ hl; cases hl
  | cons p rest ih =>
    intro cur c hnodup hl
    obtain ⟨key, pv0⟩ := p
    by_cases hkey : key = k
    · subst hkey
      have hpv : pv0 = pv := by
        simp only [lookupL, if_pos rfl] at hl
        injection hl
      subst hpv
      have hknotin : ∀ p ∈ rest, p.1 ≠ key := by
        intro q hq hqk
        have hmap : q.1 ∈ List.map Prod.fst rest := List.mem_map_of_mem Prod.fst hq
        rw [hqk] at hmap
        exact (List.nodup_cons.mp hnodup).1 hmap
      constructor
      · intro hcur
        simp only [removeStaleGo]
        rw [if_neg (by rw [hnd]; simp), if_pos hcur,
          removeStaleGo_preserve desired key rest _ _ hknotin]
        exact lookupL_eraseL_self _ _
      · intro cv hcur hne
        simp only [removeStaleGo]
        rw [if_neg (by rw [hnd]; simp), if_neg (by rw [hcur]; simp [hne]),
          removeStaleGo_preserve desired key rest _ _ hknotin]
        exact hcur
    · have hl' : lookupL rest k = some pv := by
        simpa [lookupL, hkey] using hl
      have hnodup' : NodupKeys rest := (List.nodup_cons.mp hnodup).2
      constructor
      · intro hcur
        simp only [removeStaleGo]
        by_cases hw : (lookupL desired key).isSome = true
        · rw [if_pos hw]
          exact (ih _ _ hnodup' hl').1 hcur
        · rw [if_neg hw]
          by_cases he : lookupL cur key = some pv0
          · rw [if_pos he]
            refine (ih _ _ hnodup' hl').1 ?_
            rw [lookupL_eraseL_ne _ _ _ hkey]
            exact hcur
          · rw [if_neg he]
            exact (ih _ _ hnodup' hl').1 hcur
      · intro cv hcur hne
        simp only [removeStaleGo]
        by_cases hw : (lookupL desired key).isSome = true
        · rw [if_pos hw]
          exact (ih _ _ hnodup' hl').2 cv hcur hne
        · rw [if_neg hw]
          by_cases he : lookupL cur key = some pv0
          · rw [if_pos he]
            refine (ih _ _ hnodup' hl').2 cv ?_ hne
            rw [lookupL_eraseL_ne _ _ _ hkey]
            exact hcur
          · rw [if_neg he]
            exact (ih _ _ hnodup' hl').2 cv hcur hne

theorem reconcilePassLabels_no_fail (desired : List (String × String))
    (existing prevApplied : Labels) (patterns : List String)
    (mode : ProtectionMode) (ignoreExisting : Bool)
    (h : (applyProtectionLogic desired existing prevApplied patterns mode
      ignoreExisting).shouldFail = false) :
    (reconcilePassLabels desired existing prevApplied patterns mode ignoreExisting).labels =
      (reconcileUpsertGo
        (applyProtectionLogic desired existing prevApplied patterns mode
          ignoreExisting).allowedLabels
        (removeStaleGo
          (applyProtectionLogic desired existing prevApplied patterns mode
            ignoreExisting).allowedLabels prevApplied existing false).1
        (removeStaleGo
          (applyProtectionLogic desired existing prevApplied patterns mode
            ignoreExisting).allowedLabels prevApplied existing false).2).1 := by
  simp only [reconcilePassLabels, h]
  simp

/-!
### Claim theorems
-/

/-- C1 counterexample: under skip mode with `ignoreExisting = false`, the
protected key `env` (existing value `old`, desired value `new`, so the values
differ) is removed from the target by the stale-removal step of the pass,
because it sits in the previously-applied record with its current value and is
absent from the allowed set — contradicting the claim that the target's value
for such a key is never changed. -/
theorem C1_counterexample :
    isLabelProtected "env" ["env"] = true ∧
    lookupL [("env", "old")] "env" = some "old" ∧
    "old" ≠ "new" ∧
    (reconcilePassLabels [("env", "new")] [("env", "old")] [("env", "old")] ["env"]
      ProtectionModeSkip false).labels = [] := by decide

/-- C1 (amended): for every desired label key matching a protection pattern
whose existing value on the target differs from the desired value, under skip
mode, provided the key is not present in the previously-applied ownership
record, a full reconciliation pass never changes the target's value for that
key (in particular it is not deleted), and the key never appears in the
evaluator's allowed set. -/
theorem C1_skip_mode_invariant (desired : List (String × String))
    (existing prevApplied : Labels) (patterns : List String) (ignoreExisting : Bool)
    (k v ev : String)
    (hmem : (k, v) ∈ desired)
    (hall : ∀ v', (k, v') ∈ desired → v' = v)
    (hprot : isLabelProtected k patterns = true)
    (hex : lookupL existing k = some ev)
    (hne : ev ≠ v)
    (hprev : lookupL prevApplied k = none) :
    lookupL (reconcilePassLabels desired existing prevApplied patterns
      ProtectionModeSkip ignoreExisting).labels k = some ev ∧
    lookupL (applyProtectionLogic desired existing prevApplied patterns
      ProtectionModeSkip ignoreExisting).allowedLabels k = none := by
  have hgd : getD existing k = ev := by rw [getD, hex]; rfl
  have hconfs : ∀ v', (k, v') ∈ desired →
      isConflict existing prevApplied patterns ignoreExisting k v' = true := by
    intro v' hv
    have hveq : v' = v := hall v' hv
    subst hveq
    unfold isConflict
    rw [hprot, hprev, hex, hgd]
    simp [hne]
  have hallowed : lookupL (applyProtectionLogic desired existing prevApplied patterns
      ProtectionModeSkip ignoreExisting).allowedLabels k = none := by
    unfold applyProtectionLogic
    exact applyProtectionGo_allowed_none existing prevApplied patterns
      ProtectionModeSkip ignoreExisting k desired _ hconfs rfl
  have hnofail : (applyProtectionLogic desired existing prevApplied patterns
      ProtectionModeSkip ignoreExisting).shouldFail = false := by
    unfold applyProtectionLogic
    exact applyProtectionGo_shouldFail_stable existing prevApplied patterns
      ProtectionModeSkip ignoreExisting (by decide) desired _
  refine ⟨?_, hallowed⟩
  rw [reconcilePassLabels_no_fail desired existing prevApplied patterns
    ProtectionModeSkip ignoreExisting hnofail]
  have hupk : ∀ p ∈ (applyProtectionLogic desired existing prevApplied patterns
      ProtectionModeSkip ignoreExisting).allowedLabels, p.1 ≠ k := by
    intro q hq hqk
    have hmap : q.1 ∈ keysL (applyProtectionLogic desired existing prevApplied patterns
        ProtectionModeSkip ignoreExisting).allowedLabels :=
      List.mem_map_of_mem Prod.fst hq
    rw [hqk] at hmap
    exact (lookupL_eq_none_iff _ _).mp hallowed hmap
  have hprevk : ∀ p ∈ prevApplied, p.1 ≠ k := by
    intro q hq hqk
    have hmap : q.1 ∈ keysL prevApplied := List.mem_map_of_mem Prod.fst hq
    rw [hqk] at hmap
    exact (lookupL_eq_none_iff _ _).mp hprev hmap
  rw [reconcileUpsertGo_preserve k _ _ _ hupk,
    removeStaleGo_preserve _ k _ _ _ hprevk]
  exact hex

/-- C1 witness: a protected key absent from the ownership record is left
untouched by the pass and excluded from the allowed set. -/
theorem C1_witness :
    lookupL (reconcilePassLabels [("env", "new")] [("env", "old")] [] ["env"]
      ProtectionModeSkip false).labels "env" = some "old" ∧
    lookupL (applyProtectionLogic [("env", "new")] [("env", "old")] [] ["env"]
      ProtectionModeSkip false).allowedLabels "env" = none :=
  C1_skip_mode_invariant [("env", "new")] [("env", "old")] [] ["env"] false
    "env" "new" "old" (by decide)
    (by intro v' hv; simp at hv; exact hv)
    (by decide) (by decide) (by decide) (by decide)

/-- C2: whenever the protection evaluator reports `shouldFail`, the
reconciliation pass leaves the target's label map exactly as it was: no
removal and no upsert is performed. -/
theorem C2_fail_mode_no_mutation (desired : List (String × String))
    (existing prevApplied : Labels) (patterns : List String)
    (mode : ProtectionMode) (ignoreExisting : Bool)
    (h : (applyProtectionLogic desired existing prevApplied patterns mode
      ignoreExisting).shouldFail = true) :
    (reconcilePassLabels desired existing prevApplied patterns mode
      ignoreExisting).labels = existing ∧
    (reconcilePassLabels desired existing prevApplied patterns mode
      ignoreExisting).changed = false := by
  simp [reconcilePassLabels, h]

/-- C2 witness: a fail-mode conflict leaves the target labels untouched. -/
theorem C2_witness :
    (applyProtectionLogic [("env", "new")] [("env", "old")] [] ["env"]
      ProtectionModeFail false).shouldFail = true ∧
    (reconcilePassLabels [("env", "new")] [("env", "old")] [] ["env"]
      ProtectionModeFail false).labels = [("env", "old")] :=
  ⟨by decide,
    (C2_fail_mode_no_mutation [("env", "new")] [("env", "old")] [] ["env"]
      ProtectionModeFail false (by decide)).1⟩

/-- C3 counterexample: the deletion handler iterates the CR's spec labels, not
the ownership record. With empty spec labels, the recorded key `x` (whose
current value equals the recorded value) is NOT deleted from the target,
contradicting the claim that every such recorded key is deleted. -/
theorem C3_counterexample :
    lookupL [("x", "1")] "x" = some "1" ∧
    handleDeletionLabels [] [("x", "1")] [("x", "1")] = ([("x", "1")], false) := by decide

/-- C3 (amended): during the deletion transition, every label key that is among
the deleted CR's spec label keys, is recorded in the ownership record, and
still carries the recorded value on the target, is deleted; every other target
label is left untouched; and the ownership record is then persisted as the
empty map (a subsequent read of the annotation yields the empty map). -/
theorem C3_deletion_cleanup (specKeys : List String) (labels prevApplied anns : Labels) :
    (∀ k pv, k ∈ specKeys → lookupL prevApplied k = some pv →
      lookupL labels k = some pv →
      lookupL (handleDeletionLabels specKeys labels prevApplied).1 k = none) ∧
    (∀ k, k ∉ specKeys →
      lookupL (handleDeletionLabels specKeys labels prevApplied).1 k = lookupL labels k) ∧
    (∀ k, (∀ pv, lookupL prevApplied k = some pv → lookupL labels k ≠ some pv) →
      lookupL (handleDeletionLabels specKeys labels prevApplied).1 k = lookupL labels k) ∧
    readAppliedAnno (writeAppliedAnno anns []).1 = [] := by
  refine ⟨?_, ?_, ?_, ?_⟩
  · intro k pv hk hp hl
    exact handleDeletionGo_deleted prevApplied k pv hp specKeys labels false hk hl
  · intro k hk
    exact handleDeletionGo_preserve_notin prevApplied k specKeys labels false hk
  · intro k h
    exact handleDeletionGo_preserve_nomatch prevApplied k specKeys labels false h
  · exact readAppliedAnno_of_empty_marshal _ (writeAppliedAnno_lookup anns [])

/-- C3 witness: scenario D with the CR's spec labels covering the recorded
keys `a` and `b`: both are deleted, `c` is kept, the record reads back empty. -/
theorem C3_witness :
    lookupL (handleDeletionLabels ["a", "b"]
      [("a", "1"), ("b", "2"), ("c", "keep")] [("a", "1"), ("b", "2")]).1 "a" = none ∧
    lookupL (handleDeletionLabels ["a", "b"]
      [("a", "1"), ("b", "2"), ("c", "keep")] [("a", "1"), ("b", "2")]).1 "c" = some "keep" ∧
    readAppliedAnno (writeAppliedAnno [] []).1 = [] := by
  have h := C3_deletion_cleanup ["a", "b"]
    [("a", "1"), ("b", "2"), ("c", "keep")] [("a", "1"), ("b", "2")] []
  exact ⟨h.1 "a" "1" (by decide) (by decide) (by decide), h.2.1 "c" (by decide), h.2.2.2⟩

/-- C4: reading the ownership annotation returns the empty map — never an
error and never a partially populated map — whenever the annotation is absent,
empty, or not well-formed JSON; on well-formed JSON it returns the decoded
map. -/
theorem C4_read_ownership_total (anns : Labels) :
    (lookupL anns appliedAnnoKey = none → readAppliedAnno anns = []) ∧
    (lookupL anns appliedAnnoKey = some "" → readAppliedAnno anns = []) ∧
    (∀ raw, lookupL anns appliedAnnoKey = some raw → parseJson raw = none →
      readAppliedAnno anns = []) ∧
    (∀ raw j, lookupL anns appliedAnnoKey = some raw → raw ≠ "" →
      parseJson raw = some j → readAppliedAnno anns = decodeStringMap j) := by
  refine ⟨?_, ?_, ?_, ?_⟩
  · intro h
    simp [readAppliedAnno, h]
  · intro h
    simp [readAppliedAnno, h]
  · intro raw h hp
    simp only [readAppliedAnno, h]
    by_cases hr : raw = ""
    · rw [if_pos hr]
    · rw [if_neg hr, hp]
  · intro raw j h hr hp
    simp only [readAppliedAnno, h]
    rw [if_neg hr, hp]

/-- C4 witness: a malformed annotation value yields the empty map. -/
theorem C4_witness :
    (parseJson "\x7b\"a\":\"1\",").isNone = true ∧
    readAppliedAnno [(appliedAnnoKey, "\x7b\"a\":\"1\",")] = [] :=
  ⟨by decide,
    (C4_read_ownership_total [(appliedAnnoKey, "\x7b\"a\":\"1\",")]).2.2.1
      "\x7b\"a\":\"1\"," (by decide) (Option.isNone_iff_eq_none.mp (by decide))⟩

/-- C5: in fail mode, at the first conflicting desired key the evaluator sets
`shouldFail`, appends exactly one diagnostic message, and returns immediately:
the skipped list is empty and keys not yet visited appear in neither the
allowed map nor the skipped list. -/
theorem C5_fail_stops_at_first_conflict (existing prevApplied : Labels)
    (patterns : List String) (ignoreExisting : Bool)
    (pre post : List (String × String)) (k v : String)
    (hpre : ∀ p ∈ pre, isConflict existing prevApplied patterns ignoreExisting p.1 p.2 = false)
    (hconf : isConflict existing prevApplied patterns ignoreExisting k v = true) :
    (applyProtectionLogic (pre ++ (k, v) :: post) existing prevApplied patterns
      ProtectionModeFail ignoreExisting).shouldFail = true ∧
    (applyProtectionLogic (pre ++ (k, v) :: post) existing prevApplied patterns
      ProtectionModeFail ignoreExisting).warnings =
        [protectionWarning k (getD existing k) v] ∧
    (applyProtectionLogic (pre ++ (k, v) :: post) existing prevApplied patterns
      ProtectionModeFail ignoreExisting).protectedSkipped = [] ∧
    (∀ k', k' ∉ keysL pre →
      lookupL (applyProtectionLogic (pre ++ (k, v) :: post) existing prevApplied patterns
        ProtectionModeFail ignoreExisting).allowedLabels k' = none) := by
  unfold applyProtectionLogic
  rw [applyProtectionGo_append_nonconflicts existing prevApplied patterns
    ProtectionModeFail ignoreExisting pre _ hpre]
  rcases applyProtectionGo_cons_cases existing prevApplied patterns ProtectionModeFail
      ignoreExisting k v post (allowAll ⟨[], [], [], false⟩ pre) with
    ⟨hc', _⟩ | ⟨_, _, heq⟩ | ⟨_, hm, _⟩
  · rw [hconf] at hc'; cases hc'
  · rw [heq]
    refine ⟨rfl, ?_, ?_, ?_⟩
    · show (allowAll ⟨[], [], [], false⟩ pre).warnings ++ _ = _
      rw [allowAll_warnings]
      rfl
    · show (allowAll ⟨[], [], [], false⟩ pre).protectedSkipped = []
      rw [allowAll_skipped]
    · intro k' hnotpre
      show lookupL (allowAll ⟨[], [], [], false⟩ pre).allowedLabels k' = none
      rw [allowAll_lookup k' pre _ ?_]
      · rfl
      · intro p hp hpk
        exact hnotpre (hpk ▸ List.mem_map_of_mem Prod.fst hp)
  · exact absurd rfl hm

/-- C5 witness: with one clean key before the conflict and one key after it,
the evaluator fails with a single warning, skips nothing, and the key after
the conflict is absent from the allowed map. -/
theorem C5_witness :
    (applyProtectionLogic [("ok", "1"), ("env", "new"), ("later", "z")]
      [("env", "old")] [] ["env"] ProtectionModeFail false).shouldFail = true ∧
    (applyProtectionLogic [("ok", "1"), ("env", "new"), ("later", "z")]
      [("env", "old")] [] ["env"] ProtectionModeFail false).protectedSkipped = [] ∧
    lookupL (applyProtectionLogic [("ok", "1"), ("env", "new"), ("later", "z")]
      [("env", "old")] [] ["env"] ProtectionModeFail false).allowedLabels "later" = none := by
  have h := C5_fail_stops_at_first_conflict [("env", "old")] [] ["env"] false
    [("ok", "1")] [("later", "z")] "env" "new" (by decide) (by decide)
  exact ⟨h.1, h.2.2.1, h.2.2.2 "later" (by decide)⟩

/-- C6 counterexample: the upsert step reads an absent key as `""`, so an
absent key whose allowed value is the empty string is NOT inserted — the
target stays empty and the engine reports no change — contradicting the claim
that the key is set whenever it is absent. -/
theorem C6_counterexample :
    lookupL ([] : Labels) "k" = none ∧
    applyDesiredLabels [] [("k", "")] = ([], false) := by decide

/-- C6 (amended): the upsert step sets a key to its allowed value whenever the
target's current value for it — reading an absent key as the empty string —
differs from the allowed value, and leaves its value unchanged otherwise (in
particular an absent key with empty-string allowed value is not inserted);
the merge engine returns `changed = true` iff the removal step or the upsert
step mutated at least one label. -/
theorem C6_upsert_and_changed (current labels desired prevApplied : Labels)
    (hnodup : NodupKeys desired) :
    (∀ k v, (k, v) ∈ desired → getD current k ≠ v →
      lookupL (applyDesiredLabels current desired).1 k = some v) ∧
    (∀ k v, (k, v) ∈ desired → getD current k = v →
      lookupL (applyDesiredLabels current desired).1 k = lookupL current k) ∧
    ((applyLabelsToNamespace labels desired prevApplied).2 = true ↔
      ((removeStaleLabels labels desired prevApplied).1 ≠ labels ∨
       (applyDesiredLabels (removeStaleLabels labels desired prevApplied).1 desired).1 ≠
         (removeStaleLabels labels desired prevApplied).1)) := by
  refine ⟨?_, ?_, ?_⟩
  · intro k v hmem hg
    exact applyDesiredGo_sets k v desired current false hnodup hmem hg
  · intro k v hmem hg
    exact applyDesiredGo_keeps k v desired current false hnodup hmem hg
  · have h2 : (applyLabelsToNamespace labels desired prevApplied).2 =
        ((applyDesiredLabels (removeStaleLabels labels desired prevApplied).1 desired).2 ||
         (removeStaleLabels labels desired prevApplied).2) := rfl
    rw [h2, Bool.or_eq_true]
    rw [applyDesiredLabels_changed_iff _ _ hnodup, removeStaleLabels_changed_iff]
    exact Or.comm

/-- C6 witness: an absent key with a non-empty allowed value is inserted. -/
theorem C6_witness :
    lookupL (applyDesiredLabels [("x", "1")] [("a", "2")]).1 "a" = some "2" :=
  (C6_upsert_and_changed [("x", "1")] [] [("a", "2")] [] (by decide)).1
    "a" "2" (by decide) (by decide)

/-- C7: a key present in the prior ownership record but absent from the new
desired set is removed from the target iff the target's current value equals
the recorded prior value; a third-party value is left untouched. -/
theorem C7_safe_removal (current desired prevApplied : Labels) (k pv : String)
    (hnodup : NodupKeys prevApplied)
    (hprev : lookupL prevApplied k = some pv)
    (hnotdesired : lookupL desired k = none) :
    (lookupL current k = some pv →
      lookupL (removeStaleLabels current desired prevApplied).1 k = none) ∧
    (∀ cv, lookupL current k = some cv → cv ≠ pv →
      lookupL (removeStaleLabels current desired prevApplied).1 k = some cv) := by
  unfold removeStaleLabels
  exact removeStaleGo_hit desired k pv hnotdesired prevApplied current false hnodup hprev

/-- C7 witness: the stale key with unchanged value is removed. -/
theorem C7_witness :
    lookupL (removeStaleLabels [("a", "1"), ("b", "z")] [] [("a", "1")]).1 "a" = none :=
  (C7_safe_removal [("a", "1"), ("b", "z")] [] [("a", "1")] "a" "1"
    (by decide) (by decide) (by decide)).1 (by decide)

/-- C8 counterexample: in fail mode, a conflict on an earlier key makes the
evaluator return before visiting `db`, so `db` — protected, previously owned,
with `ignoreExisting = true` — is NOT placed in the allowed map, contradicting
the claim that it is allowed unconditionally. -/
theorem C8_counterexample :
    isLabelProtected "db" ["env", "db"] = true ∧
    (lookupL [("db", "old")] "db").isSome = true ∧
    (applyProtectionLogic [("env", "x"), ("db", "v")] [("env", "old"), ("db", "old")]
      [("db", "old")] ["env", "db"] ProtectionModeFail true).shouldFail = true ∧
    lookupL (applyProtectionLogic [("env", "x"), ("db", "v")]
      [("env", "old"), ("db", "old")] [("db", "old")] ["env", "db"]
      ProtectionModeFail true).allowedLabels "db" = none := by decide

/-- C8 (amended): for every desired key matching a protection pattern, if
`ignoreExisting` is true and the key is present in the previously-applied
record, the evaluator places the key with its desired value into the allowed
map — even when the existing value differs — provided the evaluator did not
return early from a fail-mode conflict on an earlier key (i.e. whenever the
returned result has `shouldFail = false`). -/
theorem C8_ignore_existing_override (desired : List (String × String))
    (existing prevApplied : Labels) (patterns : List String)
    (mode : ProtectionMode) (k v : String)
    (hnodup : NodupKeys desired) (hmem : (k, v) ∈ desired)
    (_hprot : isLabelProtected k patterns = true)
    (hprev : (lookupL prevApplied k).isSome = true)
    (hnofail : (applyProtectionLogic desired existing prevApplied patterns mode
      true).shouldFail = false) :
    lookupL (applyProtectionLogic desired existing prevApplied patterns mode
      true).allowedLabels k = some v := by
  unfold applyProtectionLogic at hnofail ⊢
  exact applyProtectionGo_override_allowed existing prevApplied patterns mode k v
    hprev desired _ hnodup hmem hnofail

/-- C8 witness: scenario C — a previously-owned protected key whose desired
value differs from the existing one is allowed under `ignoreExisting`. -/
theorem C8_witness :
    lookupL (applyProtectionLogic [("kubernetes.io/test", "new")]
      [("kubernetes.io/test", "old")] [("kubernetes.io/test", "old")]
      ["kubernetes.io/*"] ProtectionModeSkip true).allowedLabels
      "kubernetes.io/test" = some "new" :=
  C8_ignore_existing_override [("kubernetes.io/test", "new")]
    [("kubernetes.io/test", "old")] [("kubernetes.io/test", "old")]
    ["kubernetes.io/*"] ProtectionModeSkip "kubernetes.io/test" "new"
    (by decide) (by decide) (by decide) (by decide) (by decide)

/-- C9: idempotence — re-running the merge engine on the state a successful
pass produced, with the prior-applied record equal to the allowed set, reports
`changed = false` and leaves the labels identical; and re-writing the
ownership annotation with the same map performs no update. -/
theorem C9_idempotent (labels0 allowed prevApplied anns : Labels)
    (hnodup : NodupKeys allowed) :
    applyLabelsToNamespace (applyLabelsToNamespace labels0 allowed prevApplied).1
      allowed allowed = ((applyLabelsToNamespace labels0 allowed prevApplied).1, false) ∧
    writeAppliedAnno (writeAppliedAnno anns allowed).1 allowed =
      ((writeAppliedAnno anns allowed).1, false) := by
  constructor
  · have hinv : ∀ p ∈ allowed,
        getD (applyLabelsToNamespace labels0 allowed prevApplied).1 p.1 = p.2 := by
      intro p hp
      obtain ⟨k, v⟩ := p
      exact applyDesiredGo_getD_inv allowed
        (removeStaleGo allowed prevApplied labels0 false).1 _ hnodup k v hp
    have hrs : removeStaleGo allowed allowed
        (applyLabelsToNamespace labels0 allowed prevApplied).1 false =
        ((applyLabelsToNamespace labels0 allowed prevApplied).1, false) :=
      removeStaleGo_id_of_all_wanted allowed allowed _ false
        (fun p hp => lookupL_isSome_of_mem hp)
    have had : applyDesiredGo allowed
        (applyLabelsToNamespace labels0 allowed prevApplied).1 false =
        ((applyLabelsToNamespace labels0 allowed prevApplied).1, false) :=
      applyDesiredGo_id_of_inv allowed _ hinv
    show ((applyDesiredGo allowed (removeStaleGo allowed allowed
        (applyLabelsToNamespace labels0 allowed prevApplied).1 false).1 false).1,
      (applyDesiredGo allowed (removeStaleGo allowed allowed
        (applyLabelsToNamespace labels0 allowed prevApplied).1 false).1 false).2 ||
      (removeStaleGo allowed allowed
        (applyLabelsToNamespace labels0 allowed prevApplied).1 false).2) =
      ((applyLabelsToNamespace labels0 allowed prevApplied).1, false)
    rw [hrs, had]
    rfl
  · exact writeAppliedAnno_noop _ _ (writeAppliedAnno_lookup anns allowed)

/-- C9 witness: a concrete second pass is a no-op for labels and annotation. -/
theorem C9_witness :
    applyLabelsToNamespace
      (applyLabelsToNamespace [("a", "old"), ("c", "3")] [("a", "1"), ("b", "2")]
        [("c", "3")]).1 [("a", "1"), ("b", "2")] [("a", "1"), ("b", "2")] =
      ((applyLabelsToNamespace [("a", "old"), ("c", "3")] [("a", "1"), ("b", "2")]
        [("c", "3")]).1, false) ∧
    writeAppliedAnno (writeAppliedAnno [] [("a", "1"), ("b", "2")]).1
      [("a", "1"), ("b", "2")] =
      ((writeAppliedAnno [] [("a", "1"), ("b", "2")]).1, false) :=
  C9_idempotent [("a", "old"), ("c", "3")] [("a", "1"), ("b", "2")] [("c", "3")] []
    (by decide)

/-- C10: a failing evaluator result carries exactly one warning message and an
empty skipped list, no matter how many protected conflicts the desired set
contains. -/
theorem C10_fail_single_warning (desired : List (String × String))
    (existing prevApplied : Labels) (patterns : List String)
    (mode : ProtectionMode) (ignoreExisting : Bool)
    (h : (applyProtectionLogic desired existing prevApplied patterns mode
      ignoreExisting).shouldFail = true) :
    (applyProtectionLogic desired existing prevApplied patterns mode
      ignoreExisting).warnings.length = 1 ∧
    (applyProtectionLogic desired existing prevApplied patterns mode
      ignoreExisting).protectedSkipped = [] := by
  by_cases hm : mode = ProtectionModeFail
  · subst hm
    unfold applyProtectionLogic at h ⊢
    obtain ⟨m, hw, hs⟩ := applyProtectionGo_fail_result existing prevApplied patterns
      ignoreExisting desired ⟨[], [], [], false⟩ rfl h
    constructor
    · rw [hw]
      rfl
    · rw [hs]
  · exfalso
    unfold applyProtectionLogic at h
    rw [applyProtectionGo_shouldFail_stable existing prevApplied patterns mode
      ignoreExisting hm desired ⟨[], [], [], false⟩] at h
    cases h

/-- C10 witness: two conflicting protected keys in fail mode still produce a
single warning and no skipped entries. -/
theorem C10_witness :
    (applyProtectionLogic [("a", "x"), ("b", "y")] [("a", "1"), ("b", "2")] []
      ["a", "b"] ProtectionModeFail false).shouldFail = true ∧
    (applyProtectionLogic [("a", "x"), ("b", "y")] [("a", "1"), ("b", "2")] []
      ["a", "b"] ProtectionModeFail false).warnings.length = 1 ∧
    (applyProtectionLogic [("a", "x"), ("b", "y")] [("a", "1"), ("b", "2")] []
      ["a", "b"] ProtectionModeFail false).protectedSkipped = [] := by
  have h := C10_fail_single_warning [("a", "x"), ("b", "y")] [("a", "1"), ("b", "2")]
    [] ["a", "b"] ProtectionModeFail false (by decide)
  exact ⟨by decide, h.1, h.2⟩

end NsLabelOp
